import Mathlib

/-!
Verification of the releasewatch automation scripts
(`tools_update_latest.py`, `tools_generate_checklist.py`,
`tools_apply_checked.py`).

The Python code is shallowly embedded: network fetchers are modelled by the
outcome they produce (a raised exception, or an `Optional[str]` value), rows
are records with the four named CSV fields plus an opaque remainder, and
Python dictionaries keyed by strings are association lists with
last-write-wins insertion.
-/

namespace ReleaseWatch

/-- Exceptions that can flow through `http_get` and the fetchers.  The
constructors mirror the Python classes used by `tools_update_latest.py`.
In CPython, `urllib.error.HTTPError` is a subclass of `urllib.error.URLError`;
`isinstance_URLError` reflects that. -/
inductive Exc where
  | timeoutError
  | urlError (reason : String)
  | httpError (code : Nat)
  | valueError (msg : String)
  | lookupError (msg : String)
  | runtimeError (msg : String)
  | jsonDecodeError (msg : String)
  | otherError (msg : String)
deriving DecidableEq, Repr

/-- Result of `isinstance(exc, URLError)`.  `HTTPError` instances satisfy it
because `HTTPError` derives from `URLError` in `urllib.error`. -/
def isinstance_URLError : Exc → Bool
  | Exc.urlError _ => true
  | Exc.httpError _ => true
  | _ => false

/-- Result of `isinstance(exc, TimeoutError)`. -/
def isinstance_TimeoutError : Exc → Bool
  | Exc.timeoutError => true
  | _ => false

/-- Result of `isinstance(exc, HTTPError)`. -/
def isinstance_HTTPError : Exc → Bool
  | Exc.httpError _ => true
  | _ => false

/-- The `code` attribute of an `HTTPError` (unused for other exceptions). -/
def httpCode : Exc → Nat
  | Exc.httpError c => c
  | _ => 0

/-- Embedding of `_is_retryable` (tools_update_latest.py:28-34):
`isinstance(exc, (URLError, TimeoutError))` first, then
`isinstance(exc, HTTPError) and exc.code >= 500`. -/
def _is_retryable (exc : Exc) : Bool :=
  if isinstance_URLError exc || isinstance_TimeoutError exc then true
  else if isinstance_HTTPError exc && decide (500 ≤ httpCode exc) then true
  else false

/-- Retry loop of `http_get` (tools_update_latest.py:54-84).  A single HTTP
attempt (urlopen + decompression + decoding) is modelled by an oracle giving
each attempt's outcome.  The returned list records the backoff sleeps
(`2 ** attempt` seconds) actually performed.  The `remaining` counter is the
number of loop iterations left (`max_retries - attempt`); when it reaches zero
the code past the loop runs (`raise last_exc or RuntimeError(...)`), which is
reachable only when `max_retries = 0` so `last_exc` is `None`. -/
def http_get_go (oracle : Nat → Except Exc String) (max_retries : Nat) :
    Nat → Nat → Except Exc String × List Nat
  | _, 0 => (Except.error (Exc.runtimeError "http_get failed"), [])
  | attempt, remaining + 1 =>
    match oracle attempt with
    | Except.ok s => (Except.ok s, [])
    | Except.error e =>
      if _is_retryable e = false ∨ max_retries - 1 ≤ attempt then
        (Except.error e, [])
      else
        let rest := http_get_go oracle max_retries (attempt + 1) remaining
        (rest.1, 2 ^ attempt :: rest.2)

/-- Embedding of `http_get` (tools_update_latest.py:37-84), retry skeleton
only: the pair is (returned value or raised exception, backoff sleeps). -/
def http_get (oracle : Nat → Except Exc String) (max_retries : Nat := 3) :
    Except Exc String × List Nat :=
  http_get_go oracle max_retries 0 max_retries

/-- Digit-run scanner behind `_parse_semver_tuple`: walks the characters,
carrying the value of the digit run currently being read
(`re.findall(r"\d+", v)` followed by `int`). -/
def digitRunsGo : List Char → Option Nat → List Nat
  | [], cur =>
    match cur with
    | some n => [n]
    | none => []
  | c :: rest, cur =>
    if c.isDigit then
      digitRunsGo rest (some ((cur.getD 0) * 10 + (c.toNat - 48)))
    else
      match cur with
      | some n => n :: digitRunsGo rest none
      | none => digitRunsGo rest none

/-- Embedding of `_parse_semver_tuple` (tools_update_latest.py:97-100):
every maximal run of digits in the string, in order, as numbers.
(Python's `\d` also matches non-ASCII decimal digits; version strings here
are ASCII.) -/
def _parse_semver_tuple (v : String) : List Nat :=
  digitRunsGo v.toList none

/-- Python `str.strip()`: drop leading and trailing whitespace.  (Python also
strips `\x0b`/`\x0c` and Unicode spaces, which do not occur in the data
handled here.) -/
def pyStrip (s : String) : String :=
  String.mk (((s.toList.dropWhile Char.isWhitespace).reverse.dropWhile
    Char.isWhitespace).reverse)

/-- Python `s.split(".")`: split at every dot, keeping empty pieces
(`""` splits to `[""]`). -/
def splitOnDot : List Char → List (List Char)
  | [] => [[]]
  | c :: rest =>
    let r := splitOnDot rest
    if c = '.' then [] :: r
    else
      match r with
      | [] => [[c]]
      | h :: t => (c :: h) :: t

/-- Embedding of `_strip_v_prefix` (tools_update_latest.py:92-94): strip the
tag and drop one leading letter `v`. -/
def strip_v (tag : String) : String :=
  let t := pyStrip tag
  match t.toList with
  | 'v' :: rest => String.mk rest
  | _ => t

/-- Python's `needle in haystack` substring test on strings. -/
def pyIn (needle haystack : String) : Bool :=
  decide (needle.toList <:+: haystack.toList)

/-- Python truthiness of an `Optional[str]`: neither `None` nor `""`. -/
def optTruthy (s : Option String) : Bool :=
  decide (s.getD "" ≠ "")

/-- Association lists standing for Python `dict` with string keys:
`d[k] = v` replaces the value in place or appends a new entry. -/
def dictInsert {β : Type} (k : String) (v : β) :
    List (String × β) → List (String × β)
  | [] => [(k, v)]
  | (k', v') :: rest =>
    if k' = k then (k, v) :: rest else (k', v') :: dictInsert k v rest

/-- Lookup in the association-list dictionary (`d.get(k)`). -/
def dictLookup {β : Type} : List (String × β) → String → Option β
  | [], _ => none
  | (k', v) :: rest, k => if k' = k then some v else dictLookup rest k

/-- Header construction of `http_get` (tools_update_latest.py:40-49): the
browser-like base headers, plus `Authorization: Bearer <token>` when the URL
passes the `"api.github.com" in url and GITHUB_TOKEN` test.  `github_token`
is the process-wide `GITHUB_TOKEN` read from the environment at startup. -/
def http_get_headers (github_token : Option String) (url : String) :
    List (String × String) :=
  let headers : List (String × String) :=
    [("User-Agent", "Mozilla/5.0 (Windows NT 10.0; Win64; x64) AppleWebKit/537.36 (KHTML, like Gecko) Chrome/131.0.0.0 Safari/537.36"),
     ("Accept", "text/html,application/json;q=0.9,*/*;q=0.8"),
     ("Accept-Language", "ja,en-US;q=0.9,en;q=0.8"),
     ("Accept-Encoding", "gzip,deflate"),
     ("Connection", "close")]
  if pyIn "api.github.com" url && optTruthy github_token then
    headers ++ [("Authorization", "Bearer " ++ github_token.getD "")]
  else headers

/-- Host component of a URL, following the spec's words ("the target host of
the URL"): the text between the first `://` and the following `/`.  The
source never computes a host — it runs a substring test on the whole URL —
so this definition exists only to state the specified property. -/
def urlHost : List Char → List Char
  | [] => []
  | ':' :: '/' :: '/' :: rest => rest.takeWhile (fun c => c ≠ '/')
  | _ :: rest => urlHost rest

/-- Host of a URL given as a string (see `urlHost`). -/
def urlHostStr (url : String) : String :=
  String.mk (urlHost url.toList)

/-- Case-insensitive literal matcher used to model `re.IGNORECASE` on the
letters of a literal pattern part (the literal is given in lower case). -/
def stripLitCI : List Char → List Char → Option (List Char)
  | [], cs => some cs
  | _ :: _, [] => none
  | l :: ls, c :: cs => if c.toLower = l then stripLitCI ls cs else none

/-- Scanner for `re.search(r"charset=([^\s;]+)", ctype, re.IGNORECASE)`
(tools_update_latest.py:71): at each position, try to read the literal
`charset=` case-insensitively followed by a non-empty run of characters that
are neither whitespace nor `;`; the first position where the whole pattern
matches wins, otherwise move one character right. -/
def charsetSearchGo : List Char → Option String
  | [] => none
  | c :: rest =>
    match stripLitCI "charset=".toList (c :: rest) with
    | some after =>
      let cap := after.takeWhile (fun ch => !ch.isWhitespace && ch != ';')
      if cap = [] then charsetSearchGo rest else some (String.mk cap)
    | none => charsetSearchGo rest

/-- Charset parameter extracted from a `Content-Type` value, if any. -/
def charsetOf (ctype : String) : Option String :=
  charsetSearchGo ctype.toList

/-- Codecs that can be named by the pages this program fetches.  CPython's
codec registry is open-ended; this is its restriction to the codecs relevant
here.  `codecs.lookup` of a name outside the registry raises `LookupError`
before any byte is decoded, which the model renders as `none`. -/
inductive Codec where
  | utf8
  | latin1
  | ascii
deriving DecidableEq, Repr

/-- Loop of CPython's `encodings.normalize_encoding`: keep alphanumerics and
dots, collapse every other run of characters into a single `_`, with no
leading or trailing `_`. -/
def normalizeEncodingGo : List Char → Bool → List Char → List Char
  | [], _, acc => acc.reverse
  | c :: rest, punct, acc =>
    if c.isAlphanum || c = '.' then
      normalizeEncodingGo rest false (c :: (if punct && acc ≠ [] then '_' :: acc else acc))
    else normalizeEncodingGo rest true acc

/-- Codec-name normalization performed by `bytes.decode` before the registry
search: lower-case (C-level `normalizestring`), then
`encodings.normalize_encoding`. -/
def normalizeCodecName (s : String) : String :=
  String.mk (normalizeEncodingGo (s.toList.map Char.toLower) false [])

/-- Lookup into the modelled codec registry (see `Codec`): the normalized
name is resolved through the alias table.  Names that resolve to no codec —
e.g. `bogus-charset` or the legacy web label `x-user-defined` — raise
`LookupError` in CPython. -/
def lookupCodec (name : String) : Option Codec :=
  let n := normalizeCodecName name
  if n = "utf_8" || n = "utf8" || n = "u8" || n = "utf" then some Codec.utf8
  else if n = "latin_1" || n = "latin1" || n = "iso_8859_1" || n = "iso8859_1" ||
          n = "8859" || n = "cp819" || n = "latin" || n = "l1" then some Codec.latin1
  else if n = "ascii" || n = "us_ascii" || n = "646" then some Codec.ascii
  else none

/-- The U+FFFD replacement character produced by `errors="replace"`. -/
def replChar : Char := Char.ofNat 0xFFFD

/-- Continuation byte test (`0x80..0xBF`). -/
def isCont (b : Nat) : Bool := 0x80 ≤ b && b < 0xC0

/-- Validity of the second byte of a three-byte UTF-8 sequence (rejects
overlong encodings and surrogates). -/
def utf8Valid3 (b b2 : Nat) : Bool :=
  (b ≠ 0xE0 || 0xA0 ≤ b2) && (b ≠ 0xED || b2 < 0xA0)

/-- Validity of the second byte of a four-byte UTF-8 sequence (rejects
overlong encodings and code points past U+10FFFF). -/
def utf8Valid4 (b b2 : Nat) : Bool :=
  (b ≠ 0xF0 || 0x90 ≤ b2) && (b ≠ 0xF4 || b2 < 0x90)

/-- One UTF-8 decoding step with replacement: from the head byte and the rest
of the input, the character produced and how many additional bytes were
consumed.  Ill-formed input yields U+FFFD and consumes only the head byte. -/
def utf8Step (b : Nat) (rest : List Nat) : Char × Nat :=
  if b < 0x80 then (Char.ofNat b, 0)
  else if 0xC2 ≤ b && b ≤ 0xDF then
    match rest with
    | b2 :: _ =>
      if isCont b2 then (Char.ofNat ((b - 0xC0) * 64 + (b2 - 0x80)), 1)
      else (replChar, 0)
    | [] => (replChar, 0)
  else if 0xE0 ≤ b && b ≤ 0xEF then
    match rest with
    | b2 :: b3 :: _ =>
      if isCont b2 && isCont b3 && utf8Valid3 b b2 then
        (Char.ofNat ((b - 0xE0) * 4096 + (b2 - 0x80) * 64 + (b3 - 0x80)), 2)
      else (replChar, 0)
    | _ => (replChar, 0)
  else if 0xF0 ≤ b && b ≤ 0xF4 then
    match rest with
    | b2 :: b3 :: b4 :: _ =>
      if isCont b2 && isCont b3 && isCont b4 && utf8Valid4 b b2 then
        (Char.ofNat ((b - 0xF0) * 262144 + (b2 - 0x80) * 4096 +
                     (b3 - 0x80) * 64 + (b4 - 0x80)), 3)
      else (replChar, 0)
    | _ => (replChar, 0)
  else (replChar, 0)

/-- UTF-8 decoding with replacement over a byte list: total by construction
(every ill-formed byte becomes U+FFFD). -/
def utf8DecodeReplace : List Nat → List Char
  | [] => []
  | b :: rest =>
    let st := utf8Step b rest
    st.1 :: utf8DecodeReplace (rest.drop st.2)
termination_by l => l.length
decreasing_by simp [List.length_drop]; omega

/-- Decoding a byte list under one of the modelled codecs with
`errors="replace"`; total for every modelled codec. -/
def decodeBytes (c : Codec) (raw : List Nat) : String :=
  match c with
  | Codec.utf8 => String.mk (utf8DecodeReplace raw)
  | Codec.latin1 => String.mk (raw.map (fun b => Char.ofNat (b % 256)))
  | Codec.ascii =>
    String.mk (raw.map (fun b => if b < 128 then Char.ofNat b else replChar))

/-- Python's `raw.decode(charset, errors="replace")`: the codec is looked up
first (`none` models the `LookupError` raised for an unknown name), then
decoding itself is total. -/
def pyDecodeReplace (charset : String) (raw : List Nat) : Option String :=
  (lookupCodec charset).map (fun c => decodeBytes c raw)

/-- Decoding step of `http_get` (tools_update_latest.py:69-74): the charset
is the `charset=` parameter of `Content-Type` when present, else `utf-8`;
then `raw.decode(charset, errors="replace")`. -/
def decodeStep (ctype : String) (raw : List Nat) : Option String :=
  pyDecodeReplace ((charsetOf ctype).getD "utf-8") raw

/-- One element of the JSON release list consumed by `get_gitea_latest`:
the fields the code reads, with Python truthiness of `prerelease`/`draft`
rendered as `Bool` and a missing `tag_name` as `""`. -/
structure Release where
  prerelease : Bool
  draft : Bool
  tag_name : String
deriving DecidableEq, Repr

/-- Value of a digit run (`int` on a string of digits). -/
def digitsVal (ds : List Char) : Nat :=
  ds.foldl (fun a c => a * 10 + (c.toNat - 48)) 0

/-- Python `int(s)` on a version component: optional sign then digits, else a
`ValueError` (`none`).  Python also tolerates surrounding whitespace and `_`
grouping, which cannot occur in the split version components handled here. -/
def pyInt? (s : String) : Option Int :=
  match s.toList with
  | '-' :: ds =>
    if ds ≠ [] ∧ ds.all Char.isDigit then some (-(digitsVal ds : Int)) else none
  | '+' :: ds =>
    if ds ≠ [] ∧ ds.all Char.isDigit then some ((digitsVal ds : Int)) else none
  | ds =>
    if ds ≠ [] ∧ ds.all Char.isDigit then some ((digitsVal ds : Int)) else none

/-- Filtering/parsing loop of `get_gitea_latest`
(tools_update_latest.py:128-142): keep non-prerelease, non-draft releases
with a non-empty tag whose first two dot-components parse as integers. -/
def giteaVersions : List Release → List (Int × Int × String)
  | [] => []
  | rel :: rest =>
    if rel.prerelease || rel.draft then giteaVersions rest
    else
      let tag := pyStrip rel.tag_name
      if tag = "" then giteaVersions rest
      else
        let ver := strip_v tag
        match (splitOnDot ver.toList).map String.mk with
        | p0 :: p1 :: _ =>
          match pyInt? p0, pyInt? p1 with
          | some major, some minor => (major, minor, ver) :: giteaVersions rest
          | _, _ => giteaVersions rest
        | _ => giteaVersions rest

/-- Lexicographic `<` on numeric tuples, as Python compares tuples of ints
(a strict prefix is smaller). -/
def natListLt : List Nat → List Nat → Bool
  | [], [] => false
  | [], _ :: _ => true
  | _ :: _, [] => false
  | x :: xs, y :: ys =>
    if x < y then true else if y < x then false else natListLt xs ys

/-- Sort key of `get_gitea_latest` (tools_update_latest.py:148):
`(major, minor, _parse_semver_tuple(ver))`. -/
def giteaKey (t : Int × Int × String) : Int × Int × List Nat :=
  (t.1, t.2.1, _parse_semver_tuple t.2.2)

/-- Python `<` on the gitea sort key (tuple comparison, left to right). -/
def giteaKeyLt (a b : Int × Int × List Nat) : Bool :=
  if a.1 < b.1 then true
  else if b.1 < a.1 then false
  else if a.2.1 < b.2.1 then true
  else if b.2.1 < a.2.1 then false
  else natListLt a.2.2 b.2.2

/-- Ordering relation realizing `versions.sort(key=..., reverse=True)`:
`a` may precede `b` when `a`'s key is not smaller than `b`'s.  A stable sort
by this total preorder is exactly Python's stable descending sort. -/
def giteaGE (a b : Int × Int × String) : Prop :=
  giteaKeyLt (giteaKey a) (giteaKey b) = false

instance : DecidableRel giteaGE := fun a b => by
  unfold giteaGE; infer_instance

/-- Python `<` on bare `(major, minor)` pairs, used to state what "globally
latest (major, minor)" means. -/
def pairLt (a b : Int × Int) : Bool :=
  if a.1 < b.1 then true else if b.1 < a.1 then false else decide (a.2 < b.2)

/-- Selection loop of `get_gitea_latest` (tools_update_latest.py:152-159):
first release in the (sorted) list whose `(major, minor)` is
`(latest_major, latest_minor - 1)`, or whose major is `latest_major - 1`. -/
def giteaScan (latest_major latest_minor : Int) :
    List (Int × Int × String) → Option String
  | [] => none
  | (major, minor, ver) :: rest =>
    if major = latest_major ∧ minor = latest_minor - 1 then some ver
    else if major = latest_major - 1 then some ver
    else giteaScan latest_major latest_minor rest

/-- Embedding of `get_gitea_latest` (tools_update_latest.py:123-159) from the
parsed release list onward (the HTTP fetch and `json.loads` feed it the
`Release` list). -/
def get_gitea_latest (releases : List Release) : Option String :=
  let versions := giteaVersions releases
  if versions = [] then none
  else
    let sorted := List.insertionSort giteaGE versions
    match sorted.head? with
    | none => none
    | some (latest_major, latest_minor, _) =>
      giteaScan latest_major latest_minor sorted

/-- A row of the CSV ledger: the four consumed fields (`row.get(...)` may
miss, hence `Option`) and the opaque remainder of the mapping. -/
structure Row where
  name : Option String
  formal_name : Option String
  desired_version : Option String
  latest_version : Option String
  extra : List (String × String)
deriving DecidableEq, Repr

/-- `(row.get("name") or "").strip()` (tools_update_latest.py:323). -/
def rowName (row : Row) : String :=
  pyStrip (row.name.getD "")

/-- One entry of the `updates` list built by the checklist generator
(tools_generate_checklist.py:27-39). -/
structure ChecklistItem where
  name : String
  formal_name : String
  desired : String
  latest : String
deriving DecidableEq, Repr

/-- Per-row update extraction of the checklist generator
(tools_generate_checklist.py:27-39): an item when the stripped
`latest_version` is non-empty and differs from the stripped
`desired_version`, with the display-name and sentinel fallbacks applied. -/
def checklist_update (row : Row) : Option ChecklistItem :=
  let name := pyStrip (row.name.getD "")
  let formal_name := pyStrip (row.formal_name.getD "")
  let desired := pyStrip (row.desired_version.getD "")
  let latest := pyStrip (row.latest_version.getD "")
  if latest ≠ "" ∧ latest ≠ desired then
    some { name := name,
           formal_name := if formal_name = "" then name else formal_name,
           desired := if desired = "" then "(empty)" else desired,
           latest := latest }
  else none

/-- The item line with an explicit checkbox-marker character, so that both
the emitted `- [ ]` shape and a reviewer's `- [x]` edit are instances. -/
def checklist_line_marked (marker : String) (u : ChecklistItem) : String :=
  "- [" ++ marker ++ "] **" ++ u.formal_name ++ "** (\x60" ++ u.name ++
    "\x60): " ++ u.desired ++ " → " ++ u.latest

/-- Item line emitted by the checklist generator
(tools_generate_checklist.py:49). -/
def checklist_line (u : ChecklistItem) : String :=
  checklist_line_marked " " u

/-- Exact literal matcher (case sensitive). -/
def stripLit : List Char → List Char → Option (List Char)
  | [], cs => some cs
  | _ :: _, [] => none
  | l :: ls, c :: cs => if c = l then stripLit ls cs else none

/-- Maximal run of characters satisfying `p` and the remainder. -/
def takeRun (p : Char → Bool) : List Char → List Char × List Char
  | [] => ([], [])
  | c :: cs =>
    if p c then
      let r := takeRun p cs
      (c :: r.1, r.2)
    else ([], c :: cs)

/-- The checkbox-marker letter of the pattern: one character whose lower
case is `x` (the only cased literal, affected by `re.IGNORECASE`). -/
def headX : List Char → Option (List Char)
  | [] => none
  | m :: rest => if m.toLower = 'x' then some rest else none

/-- One attempted match of the checkbox pattern
`- \[x\] \*\*[^*]+\*\* \(<backtick>([^<backtick>]+)<backtick>\):`
(tools_apply_checked.py:17) at the head of the text, under `re.IGNORECASE`
(only the letter `x` is cased).  The negated character classes make the
regex deterministic: each `[^c]+` is the maximal run up to the next `c`. -/
def matchItemAt (cs : List Char) : Option (String × List Char) :=
  (stripLit "- [".toList cs).bind fun cs1 =>
  (headX cs1).bind fun cs2 =>
  (stripLit "] **".toList cs2).bind fun cs3 =>
  let r1 := takeRun (fun c => c != '*') cs3
  if r1.1 = [] then none
  else
    (stripLit "** (\x60".toList r1.2).bind fun cs5 =>
    let r2 := takeRun (fun c => c != '\x60') cs5
    if r2.1 = [] then none
    else
      (stripLit "\x60):".toList r2.2).map fun cs7 => (String.mk r2.1, cs7)

/-- Left-to-right non-overlapping scan of `re.finditer` over the body: try
the pattern at each position; after a match, continue right after it.  The
fuel is the input length, which suffices because every step consumes at
least one character. -/
def parseChecklistAux : Nat → List Char → List String
  | 0, _ => []
  | _ + 1, [] => []
  | fuel + 1, c :: rest =>
    match matchItemAt (c :: rest) with
    | some (cap, remaining) => cap :: parseChecklistAux fuel remaining
    | none => parseChecklistAux fuel rest

/-- Embedding of `parse_checklist` (tools_apply_checked.py:13-20): the
captured names, in match order.  The Python function collects them into a
set; membership in this list is membership in that set. -/
def parse_checklist (body : String) : List String :=
  parseChecklistAux body.length body.toList

/-- Outcome of running one fetcher: the `Optional[str]` it returns, or the
exception it raises.  Fetchers perform network reads and are otherwise pure,
so a fetcher is modelled by its outcome. -/
abbrev FetcherOutcome := Except Exc (Option String)

/-- The fetcher registry `FETCHERS` (tools_update_latest.py:275-294),
abstracted over the network: `reg name` is `none` when `name` is not a
registry key, and otherwise the outcome the registered fetcher produces. -/
abbrev Registry := String → Option FetcherOutcome

/-- Embedding of `_fetch_one` (tools_update_latest.py:300-306): run the
fetcher inside `try/except Exception`, packaging value or exception into the
result triple. -/
def _fetch_one (name : String) (outcome : FetcherOutcome) :
    String × Option String × Option Exc :=
  match outcome with
  | Except.ok v => (name, v, none)
  | Except.error e => (name, none, some e)

/-- The result pair `(result, exc)` stored for a fetcher outcome. -/
def outcomePair (outcome : FetcherOutcome) : Option String × Option Exc :=
  match outcome with
  | Except.ok v => (v, none)
  | Except.error e => (none, some e)

deriving instance DecidableEq for Except

/-- `GITHUB_FETCHERS` (tools_update_latest.py:297). -/
def GITHUB_FETCHERS : List String :=
  ["gitea", "qview", "teraterm", "windows-terminal", "git"]

/-- Accumulators of the dispatch loop of `update_latest`
(tools_update_latest.py:317-333): `row_map` maps each usable name to the row
holding it (modelled by the row's index), and the two task lists feed the
two thread pools. -/
structure DispatchState where
  row_map : List (String × Nat)
  github_tasks : List (String × FetcherOutcome)
  other_tasks : List (String × FetcherOutcome)
deriving DecidableEq, Repr

/-- Dispatch loop of `update_latest` (tools_update_latest.py:322-333): for
each row with a non-empty name registered in `reg`, assign `row_map[name]`
and append a task to the pool chosen by `GITHUB_FETCHERS` membership.
`i` is the index of the current row in the original list. -/
def dispatchGo (reg : Registry) : List Row → Nat → DispatchState → DispatchState
  | [], _, st => st
  | row :: rest, i, st =>
    let name := rowName row
    if name = "" then dispatchGo reg rest (i + 1) st
    else
      match reg name with
      | none => dispatchGo reg rest (i + 1) st
      | some outc =>
        let st1 := { st with row_map := dictInsert name i st.row_map }
        let st2 :=
          if name ∈ GITHUB_FETCHERS then
            { st1 with github_tasks := st1.github_tasks ++ [(name, outc)] }
          else
            { st1 with other_tasks := st1.other_tasks ++ [(name, outc)] }
        dispatchGo reg rest (i + 1) st2

/-- The dispatch state produced for a row list. -/
def dispatchState (reg : Registry) (rows : List Row) : DispatchState :=
  dispatchGo reg rows 0 ⟨[], [], []⟩

/-- Every task submitted to either pool, in submission order. -/
def allTasks (reg : Registry) (rows : List Row) :
    List (String × FetcherOutcome) :=
  (dispatchState reg rows).other_tasks ++ (dispatchState reg rows).github_tasks

/-- Effect of the dispatch loop on `row_map` alone (proved equal to the
`row_map` component of `dispatchGo`). -/
def buildRowMapGo (reg : Registry) :
    List Row → Nat → List (String × Nat) → List (String × Nat)
  | [], _, acc => acc
  | row :: rest, i, acc =>
    let name := rowName row
    if name = "" then buildRowMapGo reg rest (i + 1) acc
    else
      match reg name with
      | none => buildRowMapGo reg rest (i + 1) acc
      | some _ => buildRowMapGo reg rest (i + 1) (dictInsert name i acc)

/-- Effect of the dispatch loop on one pool's task list alone (`gh = true`
for the GitHub pool; proved equal to the corresponding `dispatchGo`
component). -/
def poolTasks (reg : Registry) (gh : Bool) :
    List Row → List (String × FetcherOutcome)
  | [] => []
  | row :: rest =>
    let name := rowName row
    if name = "" then poolTasks reg gh rest
    else
      match reg name with
      | none => poolTasks reg gh rest
      | some outc =>
        if decide (name ∈ GITHUB_FETCHERS) = gh then
          (name, outc) :: poolTasks reg gh rest
        else poolTasks reg gh rest

/-- Index of the last row, from position `k` on, whose usable name is `n`
(used to state which row `row_map[n]` ends up holding). -/
def lastIdxFrom (reg : Registry) (n : String) : List Row → Nat → Option Nat
  | [], _ => none
  | row :: rest, k =>
    match lastIdxFrom reg n rest (k + 1) with
    | some j => some j
    | none =>
      if rowName row = n ∧ n ≠ "" ∧ (reg n).isSome then some k else none

/-- Collection loop of `update_latest` (tools_update_latest.py:347-349):
`results[name] = (result, exc)` for each completed future.  `as_completed`
yields futures in an arbitrary order, so theorems quantify over permutations
of the completed triples. -/
def collectResults (completed : List (String × Option String × Option Exc)) :
    List (String × (Option String × Option Exc)) :=
  completed.foldl (fun acc r => dictInsert r.1 (r.2.1, r.2.2) acc) []

/-- The per-name result mapping `update_latest` collects, with lookups
defaulting to `(None, None)` as in `results.get(name, (None, None))`. -/
def updateResultsF (reg : Registry) (rows : List Row) :
    String → Option String × Option Exc :=
  fun n =>
    (dictLookup (collectResults ((allTasks reg rows).map
      (fun t => _fetch_one t.1 t.2))) n).getD (none, none)

/-- Body of the reconcile loop of `update_latest`
(tools_update_latest.py:354-364) for one row: skip on a recorded exception;
otherwise, when the result is truthy and its stripped value is non-empty and
differs from the row's `latest_version`, overwrite and report `true`. -/
def applyResult (res : Option String × Option Exc) (row : Row) : Row × Bool :=
  match res.2 with
  | some _ => (row, false)
  | none =>
    match res.1 with
    | none => (row, false)
    | some s =>
      if s = "" then (row, false)
      else
        let latest := pyStrip s
        if latest ≠ "" ∧ row.latest_version ≠ some latest then
          ({ row with latest_version := some latest }, true)
        else (row, false)

/-- Reconcile loop of `update_latest` (tools_update_latest.py:352-366):
iterate `row_map.items()` in insertion order, mutating the row each entry
points at (here: the list position the entry indexes) and counting
overwrites.  The `none` guard is unreachable for the `row_map` built by the
dispatch loop, whose indices are always in range. -/
def reconcileGo (resultsF : String → Option String × Option Exc) :
    List (String × Nat) → List Row → Nat → List Row × Nat
  | [], rows, updated => (rows, updated)
  | (name, idx) :: rest, rows, updated =>
    match rows[idx]? with
    | none => reconcileGo resultsF rest rows updated
    | some row =>
      let pr := applyResult (resultsF name) row
      reconcileGo resultsF rest (rows.set idx pr.1)
        (updated + (if pr.2 then 1 else 0))

/-- Embedding of `update_latest` (tools_update_latest.py:309-366): dispatch,
collect, reconcile.  The two worker pools influence only scheduling; the
collected mapping is insensitive to completion order because each name's
tasks share one outcome (`reg name`), which the C1 theorem states for an
arbitrary completion permutation. -/
def update_latest (reg : Registry) (rows : List Row) : List Row × Nat :=
  reconcileGo (updateResultsF reg rows) (dispatchState reg rows).row_map rows 0

/-- Whether the reconcile loop counts the entry `(name, idx)` as updated:
the overwrite flag of `applyResult` on the row at `idx`. -/
def entryUpdates (resultsF : String → Option String × Option Exc)
    (rows : List Row) (p : String × Nat) : Bool :=
  match rows[p.2]? with
  | none => false
  | some row => (applyResult (resultsF p.1) row).2

/-- The release list of claim C5's concrete instance: non-prerelease
releases with `(major, minor)` pairs `(2,17)`, `(2,16)`, `(2,15)`, together
with a prerelease and a draft that would otherwise win. -/
def giteaExample : List Release :=
  [⟨false, false, "v2.17.3"⟩, ⟨true, false, "v2.18.0-rc0"⟩,
   ⟨false, true, "v2.99.0"⟩, ⟨false, false, "v2.16.54"⟩,
   ⟨false, false, "v2.15.11"⟩]

/-- Registry exercising one success, one failure and one unknown name. -/
def wreg : Registry := fun n =>
  if n = "git" then some (Except.ok (some " 2.52.0 "))
  else if n = "python" then some (Except.error (Exc.httpError 404))
  else none

/-- Rows exercising an unregistered name, a failing fetch and a success. -/
def wrows : List Row :=
  [⟨some "mystery", some "M", some "1", some "0.1", []⟩,
   ⟨some "python", some "Py", some "1", some "3.0.0", []⟩,
   ⟨some "git", some "Git", some "1", some "2.50.0", []⟩]

/-- The third row of `wrows`. -/
def wrow : Row := ⟨some "git", some "Git", some "1", some "2.50.0", []⟩

/-- A per-name result mapping decoupled from any registry. -/
def wresults : String → Option String × Option Exc := fun n =>
  if n = "git" then (some " 2.52.0 ", none)
  else if n = "python" then (none, some (Exc.httpError 404))
  else (none, none)

/-- Registry for the duplicate-name scenario. -/
def c10reg : Registry := fun n =>
  if n = "git" then some (Except.ok (some "9.9.9")) else none

/-- Two rows sharing the registered name `git`. -/
def c10rows : List Row :=
  [⟨some "git", some "Git", some "1", some "2.50.0", []⟩,
   ⟨some "git", some "Git", some "1", some "2.52.0", []⟩]

/-! Dictionary lemmas. -/

theorem dictLookup_insert_self {β : Type} (k : String) (v : β)
    (d : List (String × β)) : dictLookup (dictInsert k v d) k = some v := by
  induction d with
  | nil => simp [dictInsert, dictLookup]
  | cons p rest ih =>
    obtain ⟨k', v'⟩ := p
    by_cases h : k' = k
    · simp [dictInsert, dictLookup, h]
    · simp [dictInsert, dictLookup, h, ih]

theorem dictLookup_insert_ne {β : Type} (k n : String) (hne : n ≠ k) (v : β)
    (d : List (String × β)) :
    dictLookup (dictInsert k v d) n = dictLookup d n := by
  induction d with
  | nil => simp [dictInsert, dictLookup, Ne.symm hne]
  | cons p rest ih =>
    obtain ⟨k', v'⟩ := p
    by_cases h : k' = k
    · subst h
      simp [dictInsert, dictLookup, Ne.symm hne]
    · simp only [dictInsert, if_neg h, dictLookup]
      by_cases h2 : k' = n <;> simp [h2, ih]

theorem mem_dictInsert_sub {β : Type} (p : String × β) (k : String) (v : β)
    (d : List (String × β)) (h : p ∈ dictInsert k v d) :
    p = (k, v) ∨ p ∈ d := by
  induction d with
  | nil => simpa [dictInsert] using h
  | cons q rest ih =>
    obtain ⟨k', v'⟩ := q
    by_cases hk : k' = k
    · simp only [dictInsert, if_pos hk] at h
      rcases List.mem_cons.mp h with h | h
      · exact Or.inl h
      · exact Or.inr (List.mem_cons_of_mem _ h)
    · simp only [dictInsert, if_neg hk] at h
      rcases List.mem_cons.mp h with h | h
      · exact Or.inr (by simp [h])
      · rcases ih h with h | h
        · exact Or.inl h
        · exact Or.inr (List.mem_cons_of_mem _ h)

theorem keys_dictInsert {β : Type} (k x : String) (v : β)
    (d : List (String × β)) :
    x ∈ (dictInsert k v d).map Prod.fst ↔ x = k ∨ x ∈ d.map Prod.fst := by
  induction d with
  | nil => simp [dictInsert]
  | cons q rest ih =>
    obtain ⟨k', v'⟩ := q
    by_cases hk : k' = k
    · subst hk
      simp [dictInsert]
    · simp only [dictInsert, if_neg hk, List.map_cons, List.mem_cons, ih]
      tauto

theorem keys_nodup_dictInsert {β : Type} (k : String) (v : β)
    (d : List (String × β)) (h : (d.map Prod.fst).Nodup) :
    ((dictInsert k v d).map Prod.fst).Nodup := by
  induction d with
  | nil => simp [dictInsert]
  | cons q rest ih =>
    obtain ⟨k', v'⟩ := q
    simp only [List.map_cons, List.nodup_cons] at h
    by_cases hk : k' = k
    · subst hk
      simpa [dictInsert] using h
    · simp only [dictInsert, if_neg hk, List.map_cons, List.nodup_cons]
      refine ⟨fun hmem => ?_, ih h.2⟩
      rcases (keys_dictInsert k k' v rest).mp hmem with h' | h'
      · exact hk h'
      · exact h.1 h'

theorem dictLookup_mem {β : Type} :
    ∀ (d : List (String × β)) (n : String) (v : β),
      dictLookup d n = some v → (n, v) ∈ d := by
  intro d
  induction d with
  | nil => intro n v h; simp [dictLookup] at h
  | cons p rest ih =>
    intro n v h
    obtain ⟨k, w⟩ := p
    by_cases hk : k = n
    · subst hk
      have h' : w = v := by simpa [dictLookup] using h
      subst h'
      exact List.mem_cons_self _ _
    · simp only [dictLookup, if_neg hk] at h
      exact List.mem_cons_of_mem _ (ih n v h)

theorem mem_dictLookup {β : Type} :
    ∀ (d : List (String × β)) (n : String) (v : β),
      (d.map Prod.fst).Nodup → (n, v) ∈ d → dictLookup d n = some v := by
  intro d
  induction d with
  | nil => intro n v _ h; simp at h
  | cons p rest ih =>
    intro n v hnd hmem
    obtain ⟨k, w⟩ := p
    simp only [List.map_cons, List.nodup_cons] at hnd
    rcases List.mem_cons.mp hmem with h | h
    · rw [Prod.ext_iff] at h
      obtain ⟨h1, h2⟩ := h
      subst h1
      subst h2
      simp [dictLookup]
    · have hk : k ≠ n := by
        intro hkn
        subst hkn
        exact hnd.1 (List.mem_map.mpr ⟨(k, v), h, rfl⟩)
      simp only [dictLookup, if_neg hk]
      exact ih n v hnd.2 h

/-! Digit-run lemmas for `_parse_semver_tuple`. -/

theorem digitRunsGo_append_sep (c : Char) (hc : c.isDigit = false)
    (ys : List Char) :
    ∀ (xs : List Char) (cur : Option Nat),
      digitRunsGo (xs ++ c :: ys) cur =
        digitRunsGo xs cur ++ digitRunsGo ys none := by
  intro xs
  induction xs with
  | nil =>
    intro cur
    cases cur <;> simp [digitRunsGo, hc]
  | cons x xs ih =>
    intro cur
    by_cases hx : x.isDigit
    · simp [digitRunsGo, hx, ih]
    · cases cur <;> simp [digitRunsGo, hx, ih]

theorem digitRunsGo_digits_acc :
    ∀ (ds : List Char), (∀ c ∈ ds, c.isDigit = true) →
      ∀ a, digitRunsGo ds (some a) =
        [ds.foldl (fun x c => x * 10 + (c.toNat - 48)) a] := by
  intro ds
  induction ds with
  | nil => intro _ a; simp [digitRunsGo]
  | cons d ds ih =>
    intro h a
    have hd : d.isDigit = true := h d (by simp)
    simp only [digitRunsGo, hd, if_true, Option.getD_some, List.foldl_cons]
    exact ih (fun c hc => h c (by simp [hc])) _

theorem digitRunsGo_all_digits (ds : List Char) (hne : ds ≠ [])
    (h : ∀ c ∈ ds, c.isDigit = true) :
    digitRunsGo ds none = [digitsVal ds] := by
  cases ds with
  | nil => exact absurd rfl hne
  | cons d ds =>
    have hd : d.isDigit = true := h d (by simp)
    simp only [digitRunsGo, hd, if_true, Option.getD_none, Nat.zero_mul,
      Nat.zero_add, digitsVal, List.foldl_cons]
    exact digitRunsGo_digits_acc ds (fun c hc => h c (by simp [hc])) _

/-- Claim C8: `_parse_semver_tuple` extracts every maximal run of digits, in
order — concretely `"144.0.3719.92"` gives `(144, 0, 3719, 92)` and
`"2.16.54"` gives `(2, 16, 54)` — the key for `"2.9"` orders strictly below
the key for `"2.10"` under numeric tuple comparison, splitting at any
non-digit separator concatenates the runs of the two sides (separators are
ignored), and a pure digit run parses to its single numeric value. -/
theorem c8_parse_semver_tuple :
    _parse_semver_tuple "144.0.3719.92" = [144, 0, 3719, 92] ∧
    _parse_semver_tuple "2.16.54" = [2, 16, 54] ∧
    natListLt (_parse_semver_tuple "2.9") (_parse_semver_tuple "2.10") = true ∧
    (∀ (c : Char), c.isDigit = false → ∀ (xs ys : List Char),
      _parse_semver_tuple (String.mk (xs ++ c :: ys)) =
        _parse_semver_tuple (String.mk xs) ++ _parse_semver_tuple (String.mk ys)) ∧
    (∀ (ds : List Char), ds ≠ [] → (∀ ch ∈ ds, ch.isDigit = true) →
      _parse_semver_tuple (String.mk ds) = [digitsVal ds]) := by
  refine ⟨by decide, by decide, by decide, ?_, ?_⟩
  · intro c hc xs ys
    exact digitRunsGo_append_sep c hc ys xs none
  · intro ds hne h
    exact digitRunsGo_all_digits ds hne h

/-- Claim C8, witness: the separator-splitting part and the digit-run part
of `c8_parse_semver_tuple` applied at `'.'` and at the digits of `"2"`. -/
theorem c8_parse_semver_tuple_witness :
    _parse_semver_tuple (String.mk (['1', '4'] ++ '.' :: ['7'])) =
      _parse_semver_tuple (String.mk ['1', '4']) ++
        _parse_semver_tuple (String.mk ['7']) ∧
    _parse_semver_tuple (String.mk ['4', '2']) = [digitsVal ['4', '2']] :=
  ⟨c8_parse_semver_tuple.2.2.2.1 '.' (by decide) ['1', '4'] ['7'],
   c8_parse_semver_tuple.2.2.2.2 ['4', '2'] (by decide) (by decide)⟩

/-- Claim C2: evaluation of the code at the divergence point.  Contrary to
the claim, an HTTP 4xx error is classified retryable — `HTTPError` is a
subclass of `URLError`, so the first `isinstance` test of `_is_retryable`
catches it and the `code >= 500` test below is dead — hence a constant-404
fetch performs the backoff sleeps 1s and 2s and re-raises only after all 3
attempts.  The network-level and 5xx cases match the claim; a
non-`OSError`-family exception is fatal and re-raised at once. -/
theorem c2_http_4xx_is_retried :
    _is_retryable (Exc.httpError 404) = true ∧
    http_get (fun _ => Except.error (Exc.httpError 404)) 3 =
      (Except.error (Exc.httpError 404), [1, 2]) ∧
    _is_retryable (Exc.httpError 503) = true ∧
    _is_retryable Exc.timeoutError = true ∧
    _is_retryable (Exc.urlError "unreachable") = true ∧
    _is_retryable (Exc.valueError "bad") = false ∧
    http_get (fun _ => Except.error (Exc.valueError "bad")) 3 =
      (Except.error (Exc.valueError "bad"), []) := by
  decide

/-- Claim C6, counterexample: with a configured credential, a request to host
`evil.example` still carries the bearer header, because the code tests
`"api.github.com" in url` against the whole URL rather than its host. -/
theorem c6_substring_counterexample :
    dictLookup
        (http_get_headers (some "tok") "https://evil.example/api.github.com")
        "Authorization" = some "Bearer tok" ∧
    urlHostStr "https://evil.example/api.github.com" = "evil.example" ∧
    urlHostStr "https://evil.example/api.github.com" ≠ "api.github.com" := by
  decide

/-- Claim C6, amended: `http_get` attaches `Authorization: Bearer <token>`
if and only if the URL contains the substring `api.github.com` (anywhere,
not only as its host) and the credential is configured (set and
non-empty). -/
theorem c6_bearer_iff_substring (token : Option String) (url : String) :
    dictLookup (http_get_headers token url) "Authorization" =
      (if pyIn "api.github.com" url && optTruthy token then
        some ("Bearer " ++ token.getD "") else none) := by
  cases hb : pyIn "api.github.com" url && optTruthy token <;>
    simp only [http_get_headers, hb, Bool.false_eq_true, if_false, if_true] <;>
    rfl

/-- Claim C7, counterexample: a successfully fetched response whose
`Content-Type` names an unregistered charset (here the legacy web label
`x-user-defined`) makes the decoding step raise `LookupError` — the charset
is extracted per the regex, but `bytes.decode` fails before `errors="replace"`
can apply, so no string is produced. -/
theorem c7_unknown_charset_counterexample :
    charsetOf "text/html; charset=x-user-defined" = some "x-user-defined" ∧
    lookupCodec "x-user-defined" = none ∧
    decodeStep "text/html; charset=x-user-defined" [104, 105] = none := by
  decide

/-- Claim C7, amended: provided the extracted charset (or the `utf-8`
default) names a registered codec, the decoding step never raises and
always produces a string; the charset is the `charset=` parameter of
`Content-Type` when present and `utf-8` otherwise, and decoding proper
replaces undecodable bytes instead of raising (UTF-8 decoding with
replacement is total). -/
theorem c7_decode_total_for_known_codec (ctype : String) (raw : List Nat)
    (h : (lookupCodec ((charsetOf ctype).getD "utf-8")).isSome = true) :
    (decodeStep ctype raw).isSome = true ∧
    (charsetOf ctype = none →
      decodeStep ctype raw = some (String.mk (utf8DecodeReplace raw))) ∧
    (∀ cs, charsetOf ctype = some cs →
      decodeStep ctype raw = pyDecodeReplace cs raw) ∧
    (∀ raw' : List Nat,
      pyDecodeReplace "utf-8" raw' = some (String.mk (utf8DecodeReplace raw'))) := by
  refine ⟨?_, ?_, ?_, ?_⟩
  · obtain ⟨c, hc⟩ := Option.isSome_iff_exists.mp h
    simp [decodeStep, pyDecodeReplace, hc]
  · intro hnone
    simp only [decodeStep, hnone]
    rfl
  · intro cs hcs
    simp [decodeStep, hcs]
  · intro raw'
    rfl

/-! Ordering lemmas for the gitea sort key. -/

theorem natListLt_irrefl : ∀ xs : List Nat, natListLt xs xs = false := by
  intro xs
  induction xs with
  | nil => rfl
  | cons x xs ih => simp [natListLt, ih]

theorem natListLt_asymm :
    ∀ xs ys : List Nat, natListLt xs ys = true → natListLt ys xs = false := by
  intro xs
  induction xs with
  | nil =>
    intro ys h
    cases ys with
    | nil => simp [natListLt] at h
    | cons y ys => simp [natListLt]
  | cons x xs ih =>
    intro ys h
    cases ys with
    | nil => simp [natListLt] at h
    | cons y ys =>
      simp only [natListLt] at h ⊢
      by_cases h1 : x < y
      · simp [h1, show ¬ y < x by omega]
      · by_cases h2 : y < x
        · simp [h1, h2] at h
        · simp only [if_neg h1, if_neg h2] at h ⊢
          exact ih ys h

theorem natListLt_conn :
    ∀ xs ys : List Nat,
      natListLt xs ys = false → natListLt ys xs = false → xs = ys := by
  intro xs
  induction xs with
  | nil =>
    intro ys h1 _
    cases ys with
    | nil => rfl
    | cons y ys => simp [natListLt] at h1
  | cons x xs ih =>
    intro ys h1 h2
    cases ys with
    | nil => simp [natListLt] at h2
    | cons y ys =>
      simp only [natListLt] at h1 h2
      by_cases hxy : x < y
      · simp [hxy] at h1
      · by_cases hyx : y < x
        · simp [hyx] at h2
        · have hx : x = y := by omega
          subst hx
          simp only [if_neg hxy, if_neg hyx] at h1 h2
          rw [ih ys h1 h2]

theorem natListLt_trans :
    ∀ xs ys zs : List Nat,
      natListLt xs ys = true → natListLt ys zs = true →
      natListLt xs zs = true := by
  intro xs
  induction xs with
  | nil =>
    intro ys zs h1 h2
    cases ys with
    | nil => simp [natListLt] at h1
    | cons y ys =>
      cases zs with
      | nil => simp [natListLt] at h2
      | cons z zs => simp [natListLt]
  | cons x xs ih =>
    intro ys zs h1 h2
    cases ys with
    | nil => simp [natListLt] at h1
    | cons y ys =>
      cases zs with
      | nil => simp [natListLt] at h2
      | cons z zs =>
        simp only [natListLt] at h1 h2 ⊢
        by_cases hxy : x < y
        · by_cases hyz : y < z
          · simp [show x < z by omega]
          · by_cases hzy : z < y
            · simp [hyz, hzy] at h2
            · have h0 : y = z := by omega
              subst h0
              simp [hxy]
        · by_cases hyx : y < x
          · simp [hxy, hyx] at h1
          · have h0 : x = y := by omega
            subst h0
            simp only [if_neg hxy, lt_irrefl, if_neg (lt_irrefl x)] at h1
            by_cases hxz : x < z
            · simp [hxz]
            · by_cases hzx : z < x
              · simp [hxz, hzx] at h2
              · simp only [if_neg hxz, if_neg hzx] at h2 ⊢
                exact ih ys zs h1 h2

theorem giteaKeyLt_irrefl (a : Int × Int × List Nat) :
    giteaKeyLt a a = false := by
  obtain ⟨a1, a2, a3⟩ := a
  simp [giteaKeyLt, natListLt_irrefl]

theorem giteaKeyLt_asymm (a b : Int × Int × List Nat)
    (h : giteaKeyLt a b = true) : giteaKeyLt b a = false := by
  obtain ⟨a1, a2, a3⟩ := a
  obtain ⟨b1, b2, b3⟩ := b
  simp only [giteaKeyLt] at h ⊢
  by_cases h1 : a1 < b1
  · simp [h1, show ¬ b1 < a1 by omega]
  · by_cases h2 : b1 < a1
    · simp [h1, h2] at h
    · simp only [if_neg h1, if_neg h2] at h ⊢
      by_cases h3 : a2 < b2
      · simp [h3, show ¬ b2 < a2 by omega]
      · by_cases h4 : b2 < a2
        · simp [h3, h4] at h
        · simp only [if_neg h3, if_neg h4] at h ⊢
          exact natListLt_asymm _ _ h

theorem giteaKeyLt_conn (a b : Int × Int × List Nat)
    (h1 : giteaKeyLt a b = false) (h2 : giteaKeyLt b a = false) : a = b := by
  obtain ⟨a1, a2, a3⟩ := a
  obtain ⟨b1, b2, b3⟩ := b
  simp only [giteaKeyLt] at h1 h2
  by_cases hx : a1 < b1
  · simp [hx] at h1
  · by_cases hy : b1 < a1
    · simp [hy] at h2
    · have e1 : a1 = b1 := by omega
      subst e1
      simp only [if_neg hx, if_neg hy] at h1 h2
      by_cases hx2 : a2 < b2
      · simp [hx2] at h1
      · by_cases hy2 : b2 < a2
        · simp [hy2] at h2
        · have e2 : a2 = b2 := by omega
          subst e2
          simp only [if_neg hx2, if_neg hy2] at h1 h2
          simp [natListLt_conn _ _ h1 h2]

theorem giteaKeyLt_trans (a b c : Int × Int × List Nat)
    (h1 : giteaKeyLt a b = true) (h2 : giteaKeyLt b c = true) :
    giteaKeyLt a c = true := by
  obtain ⟨a1, a2, a3⟩ := a
  obtain ⟨b1, b2, b3⟩ := b
  obtain ⟨c1, c2, c3⟩ := c
  simp only [giteaKeyLt] at h1 h2 ⊢
  by_cases hab : a1 < b1
  · by_cases hbc : b1 < c1
    · simp [show a1 < c1 by omega]
    · by_cases hcb : c1 < b1
      · simp [hbc, hcb] at h2
      · have e : b1 = c1 := by omega
        subst e
        simp [hab]
  · by_cases hba : b1 < a1
    · simp [hab, hba] at h1
    · have e : a1 = b1 := by omega
      subst e
      simp only [if_neg hab, if_neg (lt_irrefl a1), lt_irrefl] at h1
      by_cases hac : a1 < c1
      · simp [hac]
      · by_cases hca : c1 < a1
        · simp [hac, hca] at h2
        · simp only [if_neg hac, if_neg hca] at h2 ⊢
          by_cases hab2 : a2 < b2
          · by_cases hbc2 : b2 < c2
            · simp [show a2 < c2 by omega]
            · by_cases hcb2 : c2 < b2
              · simp [hbc2, hcb2] at h2
              · have e2 : b2 = c2 := by omega
                subst e2
                simp [hab2]
          · by_cases hba2 : b2 < a2
            · simp [hab2, hba2] at h1
            · have e2 : a2 = b2 := by omega
              subst e2
              simp only [if_neg hab2, if_neg (lt_irrefl a2), lt_irrefl] at h1
              by_cases hac2 : a2 < c2
              · simp [hac2]
              · by_cases hca2 : c2 < a2
                · simp [hac2, hca2] at h2
                · simp only [if_neg hac2, if_neg hca2] at h2 ⊢
                  exact natListLt_trans _ _ _ h1 h2

theorem giteaKeyLt_negtrans (a b c : Int × Int × List Nat)
    (h1 : giteaKeyLt a b = false) (h2 : giteaKeyLt b c = false) :
    giteaKeyLt a c = false := by
  cases h : giteaKeyLt a c
  · rfl
  · exfalso
    cases hba : giteaKeyLt b a
    · have e : a = b := giteaKeyLt_conn a b h1 hba
      subst e
      rw [h] at h2
      simp at h2
    · have := giteaKeyLt_trans b a c hba h
      rw [this] at h2
      simp at h2

instance : IsTotal (Int × Int × String) giteaGE :=
  ⟨fun a b => by
    unfold giteaGE
    cases h : giteaKeyLt (giteaKey a) (giteaKey b)
    · exact Or.inl rfl
    · exact Or.inr (giteaKeyLt_asymm _ _ h)⟩

instance : IsTrans (Int × Int × String) giteaGE :=
  ⟨fun a b c hab hbc => by
    unfold giteaGE at *
    exact giteaKeyLt_negtrans _ _ _ hab hbc⟩

theorem giteaGE_pairLt (a t : Int × Int × String) (h : giteaGE a t) :
    pairLt (a.1, a.2.1) (t.1, t.2.1) = false := by
  obtain ⟨a1, a2, a3⟩ := a
  obtain ⟨t1, t2, t3⟩ := t
  unfold giteaGE giteaKey giteaKeyLt at h
  simp only [pairLt]
  simp only at h
  by_cases h1 : a1 < t1
  · simp [h1] at h
  · by_cases h2 : t1 < a1
    · simp [h1, h2]
    · simp only [if_neg h1, if_neg h2] at h ⊢
      by_cases h3 : a2 < t2
      · simp [h3] at h
      · simp [h3]

theorem giteaScan_sound (lm lmin : Int) :
    ∀ (l : List (Int × Int × String)) (ver : String),
      giteaScan lm lmin l = some ver →
      ∃ maj mnr, (maj, mnr, ver) ∈ l ∧
        ((maj = lm ∧ mnr = lmin - 1) ∨ maj = lm - 1) := by
  intro l
  induction l with
  | nil => intro ver h; simp [giteaScan] at h
  | cons t rest ih =>
    obtain ⟨major, minor, v⟩ := t
    intro ver h
    simp only [giteaScan] at h
    by_cases h1 : major = lm ∧ minor = lmin - 1
    · rw [if_pos h1] at h
      injection h with h'
      subst h'
      exact ⟨major, minor, by simp, Or.inl h1⟩
    · rw [if_neg h1] at h
      by_cases h2 : major = lm - 1
      · rw [if_pos h2] at h
        injection h with h'
        subst h'
        exact ⟨major, minor, by simp, Or.inr h2⟩
      · rw [if_neg h2] at h
        obtain ⟨maj, mnr, hmem, hc⟩ := ih ver h
        exact ⟨maj, mnr, List.mem_cons_of_mem _ hmem, hc⟩

/-- Claim C5, counterexample: with qualifying pairs `(3,5)` and `(2,9)` the
globally latest pair is `(3,5)`, whose minor `5` is not `0`, and no release
of the previous minor `(3,4)` exists — under the claim's selection rule
(previous minor; previous major only when the latest minor is 0) the result
would be absence — yet the code returns the previous-major release
`"2.9.1"`, because its scan falls through to `major == latest_major - 1`
whenever the previous minor is missing. -/
theorem c5_previous_major_counterexample :
    get_gitea_latest [⟨false, false, "v3.5.0"⟩, ⟨false, false, "v2.9.1"⟩] =
      some "2.9.1" ∧
    (giteaVersions [⟨false, false, "v3.5.0"⟩, ⟨false, false, "v2.9.1"⟩]).map
      (fun t => (t.1, t.2.1)) = [(3, 5), (2, 9)] := by
  decide

/-- Claim C5, amended: the gitea extractor discards prerelease and draft
releases, sorts the rest descending by `(major, minor, full-numeric-tuple)`,
identifies the globally latest `(major, minor)`, and returns the first
release in that order whose pair is `(latest_major, latest_minor - 1)` or
whose major is `latest_major - 1` (so the previous-major fallback applies
whenever no previous-minor release exists, not only when the latest minor is
0); on the claim's instance with pairs `(2,17)/(2,16)/(2,15)` it selects the
`(2,16)` release, and when no qualifying release exists it returns absence
(`none`), not an error. -/
theorem c5_minor_lag :
    (∀ (releases : List Release) (ver : String),
      get_gitea_latest releases = some ver →
      ∃ maj mnr LM Lm lv,
        (maj, mnr, ver) ∈ giteaVersions releases ∧
        (LM, Lm, lv) ∈ giteaVersions releases ∧
        (∀ t ∈ giteaVersions releases, pairLt (LM, Lm) (t.1, t.2.1) = false) ∧
        ((maj = LM ∧ mnr = Lm - 1) ∨ maj = LM - 1)) ∧
    get_gitea_latest giteaExample = some "2.16.54" ∧
    get_gitea_latest [] = none ∧
    get_gitea_latest [⟨true, false, "v2.18.0"⟩, ⟨false, true, "v2.19.0"⟩] =
      none := by
  refine ⟨?_, by decide, by decide, by decide⟩
  intro releases ver h
  simp only [get_gitea_latest] at h
  by_cases hv : giteaVersions releases = []
  · rw [if_pos hv] at h
    simp at h
  · rw [if_neg hv] at h
    have hperm := List.perm_insertionSort giteaGE (giteaVersions releases)
    have hsorted := List.sorted_insertionSort giteaGE (giteaVersions releases)
    cases hsort : List.insertionSort giteaGE (giteaVersions releases) with
    | nil =>
      rw [hsort] at h
      simp [List.head?] at h
    | cons hd tl =>
      obtain ⟨LM, Lm, lv⟩ := hd
      rw [hsort] at h hperm hsorted
      simp only [List.head?] at h
      obtain ⟨maj, mnr, hmem, hcond⟩ := giteaScan_sound LM Lm _ ver h
      have hhead : ∀ b ∈ tl, giteaGE (LM, Lm, lv) b :=
        (List.sorted_cons.mp hsorted).1
      refine ⟨maj, mnr, LM, Lm, lv, hperm.subset hmem,
        hperm.subset (List.mem_cons_self _ _), ?_, hcond⟩
      intro t ht
      have ht' : t ∈ (LM, Lm, lv) :: tl := hperm.symm.subset ht
      rcases List.mem_cons.mp ht' with h' | h'
      · subst h'
        simp [pairLt]
      · exact giteaGE_pairLt _ _ (hhead t h')

/-- Claim C5, witness: `c5_minor_lag` applied to the concrete release list
of the claim, whose selected version `"2.16.54"` belongs to `(2, 16)`. -/
theorem c5_minor_lag_witness :
    ∃ maj mnr LM Lm lv,
      (maj, mnr, "2.16.54") ∈ giteaVersions giteaExample ∧
      (LM, Lm, lv) ∈ giteaVersions giteaExample ∧
      (∀ t ∈ giteaVersions giteaExample, pairLt (LM, Lm) (t.1, t.2.1) = false) ∧
      ((maj = LM ∧ mnr = Lm - 1) ∨ maj = LM - 1) :=
  c5_minor_lag.1 giteaExample "2.16.54" (by decide)

/-- Claim C7, witness: `c7_decode_total_for_known_codec` applied to a
`Content-Type` carrying `charset=UTF-8` and the bytes of `"hi"`. -/
theorem c7_decode_total_witness :
    (decodeStep "text/html; charset=UTF-8" [104, 105]).isSome = true ∧
    pyDecodeReplace "utf-8" [104, 105] =
      some (String.mk (utf8DecodeReplace [104, 105])) :=
  ⟨(c7_decode_total_for_known_codec "text/html; charset=UTF-8" [104, 105]
      (by decide)).1,
   (c7_decode_total_for_known_codec "text/html; charset=UTF-8" [104, 105]
      (by decide)).2.2.2 [104, 105]⟩

/-! String plumbing lemmas for the checklist round trip. -/

theorem string_toList_append (a b : String) :
    (a ++ b).toList = a.toList ++ b.toList := by
  cases a
  cases b
  rfl

theorem string_mk_toList (s : String) : String.mk s.toList = s := by
  cases s
  rfl

theorem string_toList_ne_nil (s : String) (h : s ≠ "") : s.toList ≠ [] := by
  obtain ⟨data⟩ := s
  intro hl
  apply h
  have hd : data = [] := hl
  rw [hd]

theorem stripLit_append :
    ∀ (lit rest : List Char), stripLit lit (lit ++ rest) = some rest := by
  intro lit
  induction lit with
  | nil => intro rest; rfl
  | cons c cs ih => intro rest; simp [stripLit, ih]

theorem takeRun_append (p : Char → Bool) :
    ∀ (run : List Char) (d : Char) (rest : List Char),
      (∀ c ∈ run, p c = true) → p d = false →
      takeRun p (run ++ d :: rest) = (run, d :: rest) := by
  intro run
  induction run with
  | nil => intro d rest _ hd; simp [takeRun, hd]
  | cons c cs ih =>
    intro d rest hall hd
    have hc : p c = true := hall c (by simp)
    simp [takeRun, hc, ih d rest (fun x hx => hall x (by simp [hx])) hd]

theorem matchItemAt_line (marker : Char) (hm : marker.toLower = 'x')
    (formal name0 tail0 : List Char)
    (hf : formal ≠ []) (hfs : ∀ c ∈ formal, (c != '*') = true)
    (hn : name0 ≠ []) (hnb : ∀ c ∈ name0, (c != '\x60') = true) :
    matchItemAt ('-' :: ' ' :: '[' :: marker :: ']' :: ' ' :: '*' :: '*' ::
        (formal ++ ('*' :: '*' :: ' ' :: '(' :: '\x60' ::
          (name0 ++ ('\x60' :: ')' :: ':' :: tail0))))) =
      some (String.mk name0, tail0) := by
  have h1 := takeRun_append (fun c => c != '*') formal '*'
    ('*' :: ' ' :: '(' :: '\x60' :: (name0 ++ ('\x60' :: ')' :: ':' :: tail0)))
    hfs rfl
  have h2 := takeRun_append (fun c => c != '\x60') name0 '\x60'
    (')' :: ':' :: tail0) hnb rfl
  simp [matchItemAt, stripLit, headX, hm, h1, h2, hf, hn]

theorem parseChecklistAux_head (fuel : Nat) (c : Char) (rest : List Char)
    (cap : String) (rem : List Char)
    (h : matchItemAt (c :: rest) = some (cap, rem)) :
    cap ∈ parseChecklistAux (fuel + 1) (c :: rest) := by
  simp [parseChecklistAux, h]

/-- Claim C9, counterexample: the checklist generator accepts any field
contents, so a row whose display name contains `*` produces a generated item
line whose checked form the parser's `\*\*[^*]+\*\*` pattern cannot match:
re-parsing yields no checked names at all, and in particular the item's name
is not in the checked set. -/
theorem c9_star_counterexample :
    checklist_update
        ⟨some "git", some "Git*for*Windows", some "2.50.0", some "2.52.0", []⟩ =
      some ⟨"git", "Git*for*Windows", "2.50.0", "2.52.0"⟩ ∧
    parse_checklist (checklist_line_marked "x"
        ⟨"git", "Git*for*Windows", "2.50.0", "2.52.0"⟩) = [] := by
  decide

/-- Claim C9, amended: the generator emits exactly the claimed line for the
`git` row, and the round trip — replace the `[ ]` marker by `[x]` or `[X]`
and re-parse — yields the item's name in the checked set for every generated
item line whose display name is non-empty and free of `*` and whose name is
non-empty and free of backticks (the generator does not enforce this, and
the round trip fails without it, see the counterexample). -/
theorem c9_checklist_roundtrip :
    checklist_update
        ⟨some "git", some "Git for Windows", some "2.50.0", some "2.52.0", []⟩ =
      some ⟨"git", "Git for Windows", "2.50.0", "2.52.0"⟩ ∧
    checklist_line ⟨"git", "Git for Windows", "2.50.0", "2.52.0"⟩ =
      "- [ ] **Git for Windows** (\x60git\x60): 2.50.0 → 2.52.0" ∧
    parse_checklist (checklist_line_marked "x"
        ⟨"git", "Git for Windows", "2.50.0", "2.52.0"⟩) = ["git"] ∧
    parse_checklist (checklist_line_marked "X"
        ⟨"git", "Git for Windows", "2.50.0", "2.52.0"⟩) = ["git"] ∧
    (∀ (marker : String) (u : ChecklistItem) (suffix : String),
      (marker = "x" ∨ marker = "X") →
      u.formal_name ≠ "" → (∀ c ∈ u.formal_name.toList, (c != '*') = true) →
      u.name ≠ "" → (∀ c ∈ u.name.toList, (c != '\x60') = true) →
      u.name ∈ parse_checklist (checklist_line_marked marker u ++ suffix)) := by
  refine ⟨by decide, by decide, by decide, by decide, ?_⟩
  intro marker u suffix hm hf hfs hn hnb
  have hmc : ∃ mc : Char, marker = String.mk [mc] ∧ mc.toLower = 'x' := by
    rcases hm with hm | hm <;> subst hm
    · exact ⟨'x', rfl, rfl⟩
    · exact ⟨'X', rfl, rfl⟩
  obtain ⟨mc, hmk, hmlower⟩ := hmc
  subst hmk
  have hlist : (checklist_line_marked (String.mk [mc]) u ++ suffix).toList =
      '-' :: ' ' :: '[' :: mc :: ']' :: ' ' :: '*' :: '*' ::
        (u.formal_name.toList ++ ('*' :: '*' :: ' ' :: '(' :: '\x60' ::
          (u.name.toList ++ ('\x60' :: ')' :: ':' ::
            (' ' :: (u.desired.toList ++ (' ' :: '→' :: ' ' ::
              (u.latest.toList ++ suffix.toList)))))))) := by
    simp only [checklist_line_marked, string_toList_append,
      show ("- [" : String).toList = ['-', ' ', '['] from rfl,
      show (String.mk [mc]).toList = [mc] from rfl,
      show ("] **" : String).toList = [']', ' ', '*', '*'] from rfl,
      show ("** (\x60" : String).toList = ['*', '*', ' ', '(', '\x60'] from rfl,
      show ("\x60): " : String).toList = ['\x60', ')', ':', ' '] from rfl,
      show (" → " : String).toList = [' ', '→', ' '] from rfl]
    simp [List.append_assoc]
  have hmatch := matchItemAt_line mc hmlower u.formal_name.toList u.name.toList
    (' ' :: (u.desired.toList ++ (' ' :: '→' :: ' ' ::
      (u.latest.toList ++ suffix.toList))))
    (string_toList_ne_nil _ hf) hfs (string_toList_ne_nil _ hn) hnb
  have hlen : (checklist_line_marked (String.mk [mc]) u ++ suffix).length =
      ('-' :: ' ' :: '[' :: mc :: ']' :: ' ' :: '*' :: '*' ::
        (u.formal_name.toList ++ ('*' :: '*' :: ' ' :: '(' :: '\x60' ::
          (u.name.toList ++ ('\x60' :: ')' :: ':' ::
            (' ' :: (u.desired.toList ++ (' ' :: '→' :: ' ' ::
              (u.latest.toList ++ suffix.toList))))))))).length := by
    rw [show (checklist_line_marked (String.mk [mc]) u ++ suffix).length =
      (checklist_line_marked (String.mk [mc]) u ++ suffix).toList.length from rfl]
    rw [hlist]
  unfold parse_checklist
  rw [hlist, hlen]
  rw [show ('-' :: ' ' :: '[' :: mc :: ']' :: ' ' :: '*' :: '*' ::
        (u.formal_name.toList ++ ('*' :: '*' :: ' ' :: '(' :: '\x60' ::
          (u.name.toList ++ ('\x60' :: ')' :: ':' ::
            (' ' :: (u.desired.toList ++ (' ' :: '→' :: ' ' ::
              (u.latest.toList ++ suffix.toList))))))))).length =
      (' ' :: '[' :: mc :: ']' :: ' ' :: '*' :: '*' ::
        (u.formal_name.toList ++ ('*' :: '*' :: ' ' :: '(' :: '\x60' ::
          (u.name.toList ++ ('\x60' :: ')' :: ':' ::
            (' ' :: (u.desired.toList ++ (' ' :: '→' :: ' ' ::
              (u.latest.toList ++ suffix.toList))))))))).length + 1 from rfl]
  have hmem := parseChecklistAux_head
    (' ' :: '[' :: mc :: ']' :: ' ' :: '*' :: '*' ::
        (u.formal_name.toList ++ ('*' :: '*' :: ' ' :: '(' :: '\x60' ::
          (u.name.toList ++ ('\x60' :: ')' :: ':' ::
            (' ' :: (u.desired.toList ++ (' ' :: '→' :: ' ' ::
              (u.latest.toList ++ suffix.toList))))))))).length
    '-'
    (' ' :: '[' :: mc :: ']' :: ' ' :: '*' :: '*' ::
        (u.formal_name.toList ++ ('*' :: '*' :: ' ' :: '(' :: '\x60' ::
          (u.name.toList ++ ('\x60' :: ')' :: ':' ::
            (' ' :: (u.desired.toList ++ (' ' :: '→' :: ' ' ::
              (u.latest.toList ++ suffix.toList)))))))))
    (String.mk u.name.toList)
    (' ' :: (u.desired.toList ++ (' ' :: '→' :: ' ' ::
      (u.latest.toList ++ suffix.toList))))
    hmatch
  rw [string_mk_toList] at hmem
  exact hmem

/-- Claim C9, witness: the general round-trip part of
`c9_checklist_roundtrip` applied with the `[X]` marker to a concrete
generated item and a trailing newline. -/
theorem c9_checklist_roundtrip_witness :
    "qview" ∈ parse_checklist
      (checklist_line_marked "X" ⟨"qview", "qView", "3.0", "3.1"⟩ ++ "\n") :=
  c9_checklist_roundtrip.2.2.2.2 "X" ⟨"qview", "qView", "3.0", "3.1"⟩ "\n"
    (Or.inr rfl) (by decide) (by decide) (by decide) (by decide)

/-! Collection-phase lemmas. -/

theorem collectAux_keys_nodup :
    ∀ (l : List (String × Option String × Option Exc))
      (acc : List (String × (Option String × Option Exc))),
      (acc.map Prod.fst).Nodup →
      ((l.foldl (fun acc r => dictInsert r.1 (r.2.1, r.2.2) acc) acc).map
        Prod.fst).Nodup := by
  intro l
  induction l with
  | nil => intro acc h; exact h
  | cons r rest ih =>
    intro acc h
    rw [List.foldl_cons]
    exact ih _ (keys_nodup_dictInsert _ _ _ h)

theorem collectResults_keys_nodup
    (completed : List (String × Option String × Option Exc)) :
    ((collectResults completed).map Prod.fst).Nodup :=
  collectAux_keys_nodup completed [] (by simp)

theorem collectAux_lookup (n : String) (v : Option String × Option Exc) :
    ∀ (l : List (String × Option String × Option Exc))
      (acc : List (String × (Option String × Option Exc))),
      (∀ p ∈ l, p.1 = n → (p.2.1, p.2.2) = v) →
      dictLookup (l.foldl (fun acc r => dictInsert r.1 (r.2.1, r.2.2) acc) acc)
          n =
        if n ∈ l.map Prod.fst then some v else dictLookup acc n := by
  intro l
  induction l with
  | nil => intro acc _; simp
  | cons r rest ih =>
    intro acc hall
    rw [List.foldl_cons,
      ih _ (fun p hp h => hall p (List.mem_cons_of_mem _ hp) h)]
    simp only [List.map_cons, List.mem_cons]
    by_cases hr : r.1 = n
    · have hv : (r.2.1, r.2.2) = v := hall r (List.mem_cons_self _ _) hr
      by_cases hmem : n ∈ rest.map Prod.fst
      · simp [hmem, hr]
      · rw [if_neg hmem, if_pos (Or.inl hr.symm)]
        rw [← hr, ← hv]
        exact dictLookup_insert_self _ _ _
    · by_cases hmem : n ∈ rest.map Prod.fst
      · simp [hmem, hr]
      · rw [if_neg hmem, if_neg (by
          rintro (h | h)
          · exact hr h.symm
          · exact hmem h)]
        exact dictLookup_insert_ne _ _ (fun h => hr h.symm) _ _

theorem collectResults_lookup
    (completed : List (String × Option String × Option Exc))
    (n : String) (v : Option String × Option Exc)
    (hall : ∀ p ∈ completed, p.1 = n → (p.2.1, p.2.2) = v)
    (hmem : n ∈ completed.map Prod.fst) :
    dictLookup (collectResults completed) n = some v := by
  unfold collectResults
  rw [collectAux_lookup n v completed [] hall, if_pos hmem]

/-! `applyResult` characterization. -/

theorem applyResult_flag_false (res : Option String × Option Exc) (row : Row)
    (h : (applyResult res row).2 = false) : (applyResult res row).1 = row := by
  rcases res with ⟨r1, r2⟩
  cases r2 with
  | some e => rfl
  | none =>
    cases r1 with
    | none => rfl
    | some s =>
      simp only [applyResult] at h ⊢
      by_cases h0 : s = ""
      · simp [h0]
      · rw [if_neg h0] at h ⊢
        by_cases hc : pyStrip s ≠ "" ∧ row.latest_version ≠ some (pyStrip s)
        · rw [if_pos hc] at h
          simp at h
        · rw [if_neg hc]

theorem applyResult_flag_true (res : Option String × Option Exc) (row : Row)
    (h : (applyResult res row).2 = true) :
    res.2 = none ∧ ∃ s, res.1 = some s ∧ pyStrip s ≠ "" ∧
      row.latest_version ≠ some (pyStrip s) ∧
      (applyResult res row).1 = { row with latest_version := some (pyStrip s) } := by
  rcases res with ⟨r1, r2⟩
  cases r2 with
  | some e => simp [applyResult] at h
  | none =>
    cases r1 with
    | none => simp [applyResult] at h
    | some s =>
      simp only [applyResult] at h
      by_cases h0 : s = ""
      · rw [if_pos h0] at h
        simp at h
      · rw [if_neg h0] at h
        by_cases hc : pyStrip s ≠ "" ∧ row.latest_version ≠ some (pyStrip s)
        · refine ⟨rfl, s, rfl, hc.1, hc.2, ?_⟩
          simp only [applyResult]
          rw [if_neg h0, if_pos hc]
        · rw [if_neg hc] at h
          simp at h

theorem applyResult_flag_of_cond (res : Option String × Option Exc) (row : Row)
    (h2 : res.2 = none) (s : String) (h1 : res.1 = some s)
    (hs : pyStrip s ≠ "") (hd : row.latest_version ≠ some (pyStrip s)) :
    (applyResult res row).2 = true := by
  rcases res with ⟨r1, r2⟩
  simp only at h1 h2
  subst h1
  subst h2
  have h0 : s ≠ "" := by
    intro h
    subst h
    exact hs rfl
  simp only [applyResult]
  rw [if_neg h0, if_pos ⟨hs, hd⟩]

theorem applyResult_frame (res : Option String × Option Exc) (row : Row) :
    (applyResult res row).1.name = row.name ∧
    (applyResult res row).1.formal_name = row.formal_name ∧
    (applyResult res row).1.desired_version = row.desired_version ∧
    (applyResult res row).1.extra = row.extra := by
  cases hflag : (applyResult res row).2 with
  | false => rw [applyResult_flag_false res row hflag]; exact ⟨rfl, rfl, rfl, rfl⟩
  | true =>
    obtain ⟨-, s, -, -, -, hrow⟩ := applyResult_flag_true res row hflag
    rw [hrow]
    exact ⟨rfl, rfl, rfl, rfl⟩

theorem applyResult_latest_changed_iff (res : Option String × Option Exc)
    (row : Row) :
    (applyResult res row).1.latest_version ≠ row.latest_version ↔
      (applyResult res row).2 = true := by
  constructor
  · intro h
    cases hflag : (applyResult res row).2 with
    | true => rfl
    | false =>
      rw [applyResult_flag_false res row hflag] at h
      exact absurd rfl h
  · intro hflag
    obtain ⟨-, s, -, -, hd, hrow⟩ := applyResult_flag_true res row hflag
    rw [hrow]
    simpa using fun h => hd h.symm

theorem applyResult_changed_iff (res : Option String × Option Exc)
    (row : Row) :
    (applyResult res row).1 ≠ row ↔ (applyResult res row).2 = true := by
  constructor
  · intro h
    cases hflag : (applyResult res row).2 with
    | true => rfl
    | false => exact absurd (applyResult_flag_false res row hflag) h
  · intro hflag
    intro hrow
    have := (applyResult_latest_changed_iff res row).mpr hflag
    rw [hrow] at this
    exact this rfl

theorem applyResult_exc (res : Option String × Option Exc) (row : Row)
    (h : res.2.isSome = true) : applyResult res row = (row, false) := by
  rcases res with ⟨r1, r2⟩
  cases r2 with
  | none => simp at h
  | some e => rfl

/-! Reconcile-loop lemmas. -/

theorem reconcileGo_length (f : String → Option String × Option Exc) :
    ∀ (m : List (String × Nat)) (rows : List Row) (u : Nat),
      (reconcileGo f m rows u).1.length = rows.length := by
  intro m
  induction m with
  | nil => intro rows u; rfl
  | cons e rest ih =>
    intro rows u
    obtain ⟨name, idx⟩ := e
    simp only [reconcileGo]
    cases hrow : rows[idx]? with
    | none => exact ih rows u
    | some row => rw [ih, List.length_set]

theorem reconcileGo_untouched (f : String → Option String × Option Exc) :
    ∀ (m : List (String × Nat)) (rows : List Row) (u : Nat) (i : Nat),
      (∀ p ∈ m, p.2 ≠ i) →
      (reconcileGo f m rows u).1[i]? = rows[i]? := by
  intro m
  induction m with
  | nil => intro rows u i _; rfl
  | cons e rest ih =>
    intro rows u i hne
    obtain ⟨name, idx⟩ := e
    simp only [reconcileGo]
    cases hrow : rows[idx]? with
    | none => exact ih rows u i (fun p hp => hne p (List.mem_cons_of_mem _ hp))
    | some row =>
      rw [ih _ _ i (fun p hp => hne p (List.mem_cons_of_mem _ hp))]
      exact List.getElem?_set_ne (hne (name, idx) (List.mem_cons_self _ _))

theorem reconcileGo_touched (f : String → Option String × Option Exc) :
    ∀ (m : List (String × Nat)), (m.map Prod.snd).Nodup →
      ∀ (rows : List Row) (u : Nat) (name : String) (idx : Nat) (row : Row),
        (name, idx) ∈ m → rows[idx]? = some row →
        (reconcileGo f m rows u).1[idx]? =
          some (applyResult (f name) row).1 := by
  intro m
  induction m with
  | nil => intro _ rows u name idx row h _; simp at h
  | cons e rest ih =>
    intro hnd rows u name idx row hmem hrow
    obtain ⟨n0, i0⟩ := e
    simp only [List.map_cons, List.nodup_cons] at hnd
    rcases List.mem_cons.mp hmem with heq | hmem'
    · rw [Prod.ext_iff] at heq
      obtain ⟨h1, h2⟩ := heq
      simp only at h1 h2
      subst h1
      subst h2
      simp only [reconcileGo, hrow]
      rw [reconcileGo_untouched f rest _ _ idx (fun p hp hpi =>
        hnd.1 (hpi ▸ List.mem_map.mpr ⟨p, hp, rfl⟩))]
      obtain ⟨hlt, -⟩ := List.getElem?_eq_some.mp hrow
      exact List.getElem?_set_eq_of_lt _ hlt
    · have hiidx : idx ∈ rest.map Prod.snd :=
        List.mem_map.mpr ⟨(name, idx), hmem', rfl⟩
      have hne : i0 ≠ idx := fun h => hnd.1 (h ▸ hiidx)
      simp only [reconcileGo]
      cases hrow0 : rows[i0]? with
      | none => exact ih hnd.2 rows u name idx row hmem' hrow
      | some row0 =>
        refine ih hnd.2 _ _ name idx row hmem' ?_
        rw [List.getElem?_set_ne hne]
        exact hrow

theorem reconcileGo_count (f : String → Option String × Option Exc) :
    ∀ (m : List (String × Nat)), (m.map Prod.snd).Nodup →
      ∀ (rows : List Row) (u : Nat),
        (reconcileGo f m rows u).2 = u + m.countP (entryUpdates f rows) := by
  intro m
  induction m with
  | nil => intro _ rows u; simp [reconcileGo]
  | cons e rest ih =>
    intro hnd rows u
    obtain ⟨name, idx⟩ := e
    simp only [List.map_cons, List.nodup_cons] at hnd
    simp only [reconcileGo]
    cases hrow : rows[idx]? with
    | none =>
      rw [ih hnd.2 rows u, List.countP_cons]
      simp [entryUpdates, hrow]
    | some row =>
      rw [ih hnd.2 _ _, List.countP_cons]
      have hcong :
          rest.countP (entryUpdates f
            (rows.set idx (applyResult (f name) row).1)) =
          rest.countP (entryUpdates f rows) := by
        refine List.countP_congr ?_
        intro p hp
        have hne : idx ≠ p.2 := fun h =>
          hnd.1 (h ▸ List.mem_map.mpr ⟨p, hp, rfl⟩)
        simp [entryUpdates, List.getElem?_set_ne hne]
      rw [hcong]
      simp only [entryUpdates, hrow]
      cases (applyResult (f name) row).2
      · simp
      · simp
        omega

/-! Dispatch-loop lemmas. -/

theorem dispatchGo_row_map (reg : Registry) :
    ∀ (rows : List Row) (i : Nat) (st : DispatchState),
      (dispatchGo reg rows i st).row_map =
        buildRowMapGo reg rows i st.row_map := by
  intro rows
  induction rows with
  | nil => intro i st; rfl
  | cons row rest ih =>
    intro i st
    by_cases h0 : rowName row = ""
    · simp [dispatchGo, buildRowMapGo, h0, ih]
    · cases hreg : reg (rowName row) with
      | none => simp [dispatchGo, buildRowMapGo, h0, hreg, ih]
      | some outc =>
        by_cases hgh : rowName row ∈ GITHUB_FETCHERS
        · simp [dispatchGo, buildRowMapGo, h0, hreg, hgh, ih]
        · simp [dispatchGo, buildRowMapGo, h0, hreg, hgh, ih]

theorem dispatchGo_github (reg : Registry) :
    ∀ (rows : List Row) (i : Nat) (st : DispatchState),
      (dispatchGo reg rows i st).github_tasks =
        st.github_tasks ++ poolTasks reg true rows := by
  intro rows
  induction rows with
  | nil => intro i st; simp [dispatchGo, poolTasks]
  | cons row rest ih =>
    intro i st
    by_cases h0 : rowName row = ""
    · simp [dispatchGo, poolTasks, h0, ih]
    · cases hreg : reg (rowName row) with
      | none => simp [dispatchGo, poolTasks, h0, hreg, ih]
      | some outc =>
        by_cases hgh : rowName row ∈ GITHUB_FETCHERS
        · simp [dispatchGo, poolTasks, h0, hreg, hgh, ih]
        · simp [dispatchGo, poolTasks, h0, hreg, hgh, ih]

theorem dispatchGo_other (reg : Registry) :
    ∀ (rows : List Row) (i : Nat) (st : DispatchState),
      (dispatchGo reg rows i st).other_tasks =
        st.other_tasks ++ poolTasks reg false rows := by
  intro rows
  induction rows with
  | nil => intro i st; simp [dispatchGo, poolTasks]
  | cons row rest ih =>
    intro i st
    by_cases h0 : rowName row = ""
    · simp [dispatchGo, poolTasks, h0, ih]
    · cases hreg : reg (rowName row) with
      | none => simp [dispatchGo, poolTasks, h0, hreg, ih]
      | some outc =>
        by_cases hgh : rowName row ∈ GITHUB_FETCHERS
        · simp [dispatchGo, poolTasks, h0, hreg, hgh, ih]
        · simp [dispatchGo, poolTasks, h0, hreg, hgh, ih]

theorem allTasks_eq (reg : Registry) (rows : List Row) :
    allTasks reg rows =
      poolTasks reg false rows ++ poolTasks reg true rows := by
  unfold allTasks dispatchState
  rw [dispatchGo_other reg rows 0 ⟨[], [], []⟩,
    dispatchGo_github reg rows 0 ⟨[], [], []⟩]
  rfl

theorem rowMap_eq (reg : Registry) (rows : List Row) :
    (dispatchState reg rows).row_map = buildRowMapGo reg rows 0 [] :=
  dispatchGo_row_map reg rows 0 ⟨[], [], []⟩

theorem poolTasks_outcome (reg : Registry) (gh : Bool) :
    ∀ (rows : List Row) (p : String × FetcherOutcome),
      p ∈ poolTasks reg gh rows → reg p.1 = some p.2 := by
  intro rows
  induction rows with
  | nil => intro p h; simp [poolTasks] at h
  | cons row rest ih =>
    intro p hp
    by_cases h0 : rowName row = ""
    · rw [show poolTasks reg gh (row :: rest) = poolTasks reg gh rest by
        simp [poolTasks, h0]] at hp
      exact ih p hp
    · cases hreg : reg (rowName row) with
      | none =>
        rw [show poolTasks reg gh (row :: rest) = poolTasks reg gh rest by
          simp [poolTasks, h0, hreg]] at hp
        exact ih p hp
      | some outc =>
        by_cases hgh : decide (rowName row ∈ GITHUB_FETCHERS) = gh
        · rw [show poolTasks reg gh (row :: rest) =
              (rowName row, outc) :: poolTasks reg gh rest by
            simp [poolTasks, h0, hreg, hgh]] at hp
          rcases List.mem_cons.mp hp with heq | hp'
          · subst heq
            exact hreg
          · exact ih p hp'
        · rw [show poolTasks reg gh (row :: rest) = poolTasks reg gh rest by
            simp [poolTasks, h0, hreg, hgh]] at hp
          exact ih p hp

theorem poolTasks_mem (reg : Registry) (n : String) (outc : FetcherOutcome)
    (hreg : reg n = some outc) :
    ∀ (rows : List Row) (row : Row), row ∈ rows → rowName row = n →
      n ≠ "" →
      (n, outc) ∈ poolTasks reg (decide (n ∈ GITHUB_FETCHERS)) rows := by
  intro rows
  induction rows with
  | nil => intro row h; simp at h
  | cons r0 rest ih =>
    intro row hmem hname hne
    have htail : ∀ gh, (n, outc) ∈ poolTasks reg gh rest →
        (n, outc) ∈ poolTasks reg gh (r0 :: rest) := by
      intro gh hin
      by_cases h0 : rowName r0 = ""
      · rw [show poolTasks reg gh (r0 :: rest) = poolTasks reg gh rest by
          simp [poolTasks, h0]]
        exact hin
      · cases hreg0 : reg (rowName r0) with
        | none =>
          rw [show poolTasks reg gh (r0 :: rest) = poolTasks reg gh rest by
            simp [poolTasks, h0, hreg0]]
          exact hin
        | some outc0 =>
          by_cases hgh : decide (rowName r0 ∈ GITHUB_FETCHERS) = gh
          · rw [show poolTasks reg gh (r0 :: rest) =
                (rowName r0, outc0) :: poolTasks reg gh rest by
              simp [poolTasks, h0, hreg0, hgh]]
            exact List.mem_cons_of_mem _ hin
          · rw [show poolTasks reg gh (r0 :: rest) = poolTasks reg gh rest by
              simp [poolTasks, h0, hreg0, hgh]]
            exact hin
    rcases List.mem_cons.mp hmem with heq | hmem'
    · subst heq
      rw [show poolTasks reg (decide (n ∈ GITHUB_FETCHERS)) (row :: rest) =
          (n, outc) :: poolTasks reg (decide (n ∈ GITHUB_FETCHERS)) rest by
        simp [poolTasks, hname, hne, hreg]]
      exact List.mem_cons_self _ _
    · exact htail _ (ih row hmem' hname hne)

theorem allTasks_mem_name (reg : Registry) (rows : List Row) (n : String)
    (row : Row) (hrow : row ∈ rows) (hname : rowName row = n) (hne : n ≠ "")
    (outc : FetcherOutcome) (hreg : reg n = some outc) :
    n ∈ (allTasks reg rows).map Prod.fst := by
  rw [allTasks_eq]
  have hmem := poolTasks_mem reg n outc hreg rows row hrow hname hne
  rw [List.map_append]
  cases hgh : decide (n ∈ GITHUB_FETCHERS) with
  | false =>
    rw [hgh] at hmem
    exact List.mem_append_left _ (List.mem_map.mpr ⟨(n, outc), hmem, rfl⟩)
  | true =>
    rw [hgh] at hmem
    exact List.mem_append_right _ (List.mem_map.mpr ⟨(n, outc), hmem, rfl⟩)

theorem allTasks_outcome (reg : Registry) (rows : List Row)
    (p : String × FetcherOutcome) (hp : p ∈ allTasks reg rows) :
    reg p.1 = some p.2 := by
  rw [allTasks_eq] at hp
  rcases List.mem_append.mp hp with hp | hp
  · exact poolTasks_outcome reg false rows p hp
  · exact poolTasks_outcome reg true rows p hp

/-! Row-map lemmas. -/

theorem buildRowMapGo_inv (reg : Registry) (P : String × Nat → Prop) :
    ∀ (rows : List Row) (k : Nat) (acc : List (String × Nat)),
      (∀ p ∈ acc, P p) →
      (∀ (j : Nat) (row : Row), rows[j]? = some row → rowName row ≠ "" →
        (reg (rowName row)).isSome = true → P (rowName row, k + j)) →
      ∀ p ∈ buildRowMapGo reg rows k acc, P p := by
  intro rows
  induction rows with
  | nil => intro k acc hacc _ p hp; exact hacc p hp
  | cons row rest ih =>
    intro k acc hacc hrows p hp
    simp only [buildRowMapGo] at hp
    have hshift : ∀ (j : Nat) (row' : Row), rest[j]? = some row' →
        rowName row' ≠ "" → (reg (rowName row')).isSome = true →
        P (rowName row', (k + 1) + j) := by
      intro j row' hj hne hsome
      have h := hrows (j + 1) row' (by simpa using hj) hne hsome
      have e : k + (j + 1) = (k + 1) + j := by omega
      exact e ▸ h
    by_cases h0 : rowName row = ""
    · rw [if_pos h0] at hp
      exact ih (k + 1) acc hacc hshift p hp
    · rw [if_neg h0] at hp
      cases hreg : reg (rowName row) with
      | none =>
        rw [hreg] at hp
        exact ih (k + 1) acc hacc hshift p hp
      | some outc =>
        rw [hreg] at hp
        refine ih (k + 1) (dictInsert (rowName row) k acc) ?_ hshift p hp
        intro q hq
        rcases mem_dictInsert_sub q _ _ _ hq with hq | hq
        · subst hq
          have h := hrows 0 row (by simp) h0 (by simp [hreg])
          simpa using h
        · exact hacc q hq

theorem rowMap_entry_spec (reg : Registry) (rows : List Row) :
    ∀ p ∈ (dispatchState reg rows).row_map,
      ∃ row, rows[p.2]? = some row ∧ rowName row = p.1 ∧ p.1 ≠ "" ∧
        (reg p.1).isSome = true := by
  rw [rowMap_eq]
  refine buildRowMapGo_inv reg _ rows 0 [] (by simp) ?_
  intro j row hj hne hsome
  exact ⟨row, by simpa using hj, rfl, hne, hsome⟩

theorem buildRowMapGo_keys_nodup (reg : Registry) :
    ∀ (rows : List Row) (k : Nat) (acc : List (String × Nat)),
      (acc.map Prod.fst).Nodup →
      ((buildRowMapGo reg rows k acc).map Prod.fst).Nodup := by
  intro rows
  induction rows with
  | nil => intro k acc h; exact h
  | cons row rest ih =>
    intro k acc h
    simp only [buildRowMapGo]
    by_cases h0 : rowName row = ""
    · rw [if_pos h0]
      exact ih (k + 1) acc h
    · rw [if_neg h0]
      cases hreg : reg (rowName row) with
      | none => exact ih (k + 1) acc h
      | some outc =>
        exact ih (k + 1) _ (keys_nodup_dictInsert _ _ _ h)

theorem rowMap_keys_nodup (reg : Registry) (rows : List Row) :
    (((dispatchState reg rows).row_map).map Prod.fst).Nodup := by
  rw [rowMap_eq]
  exact buildRowMapGo_keys_nodup reg rows 0 [] (by simp)

theorem rowMap_snd_nodup (reg : Registry) (rows : List Row) :
    (((dispatchState reg rows).row_map).map Prod.snd).Nodup := by
  have hkeys := rowMap_keys_nodup reg rows
  have hspec := rowMap_entry_spec reg rows
  have hm : ((dispatchState reg rows).row_map).Nodup := hkeys.of_map _
  refine hm.map_on ?_
  intro p hp q hq hpq
  obtain ⟨rowp, hrp, hnp, -, -⟩ := hspec p hp
  obtain ⟨rowq, hrq, hnq, -, -⟩ := hspec q hq
  rw [hpq] at hrp
  rw [hrq] at hrp
  injection hrp with hrp
  subst hrp
  have hfst : p.1 = q.1 := by rw [← hnp, ← hnq]
  obtain ⟨p1, p2⟩ := p
  obtain ⟨q1, q2⟩ := q
  simp only at hfst hpq
  rw [hfst, hpq]

theorem buildRowMapGo_lookup (reg : Registry) (n : String) :
    ∀ (rows : List Row) (k : Nat) (acc : List (String × Nat)),
      dictLookup (buildRowMapGo reg rows k acc) n =
        match lastIdxFrom reg n rows k with
        | some j => some j
        | none => dictLookup acc n := by
  intro rows
  induction rows with
  | nil => intro k acc; rfl
  | cons row rest ih =>
    intro k acc
    cases hrec : lastIdxFrom reg n rest (k + 1) with
    | some j =>
      by_cases h0 : rowName row = ""
      · rw [show buildRowMapGo reg (row :: rest) k acc =
            buildRowMapGo reg rest (k + 1) acc from by simp [buildRowMapGo, h0],
          ih (k + 1) acc]
        simp [lastIdxFrom, hrec]
      · cases hreg : reg (rowName row) with
        | none =>
          rw [show buildRowMapGo reg (row :: rest) k acc =
              buildRowMapGo reg rest (k + 1) acc from by
                simp [buildRowMapGo, h0, hreg],
            ih (k + 1) acc]
          simp [lastIdxFrom, hrec]
        | some outc =>
          rw [show buildRowMapGo reg (row :: rest) k acc =
              buildRowMapGo reg rest (k + 1) (dictInsert (rowName row) k acc)
              from by simp [buildRowMapGo, h0, hreg],
            ih (k + 1) _]
          simp [lastIdxFrom, hrec]
    | none =>
      by_cases h0 : rowName row = ""
      · rw [show buildRowMapGo reg (row :: rest) k acc =
            buildRowMapGo reg rest (k + 1) acc from by simp [buildRowMapGo, h0],
          ih (k + 1) acc]
        have hcond : ¬(rowName row = n ∧ n ≠ "" ∧ (reg n).isSome = true) := by
          rintro ⟨h1, h2, -⟩
          exact h2 (h1 ▸ h0)
        simp [lastIdxFrom, hrec, hcond]
      · cases hreg : reg (rowName row) with
        | none =>
          rw [show buildRowMapGo reg (row :: rest) k acc =
              buildRowMapGo reg rest (k + 1) acc from by
                simp [buildRowMapGo, h0, hreg],
            ih (k + 1) acc]
          have hcond : ¬(rowName row = n ∧ n ≠ "" ∧ (reg n).isSome = true) := by
            rintro ⟨h1, -, h3⟩
            rw [← h1, hreg] at h3
            simp at h3
          simp [lastIdxFrom, hrec, hcond]
        | some outc =>
          rw [show buildRowMapGo reg (row :: rest) k acc =
              buildRowMapGo reg rest (k + 1) (dictInsert (rowName row) k acc)
              from by simp [buildRowMapGo, h0, hreg],
            ih (k + 1) _]
          by_cases hn : rowName row = n
          · have hcond : rowName row = n ∧ n ≠ "" ∧ (reg n).isSome = true :=
              ⟨hn, fun h => h0 (hn.trans h), by rw [← hn, hreg]; rfl⟩
            simp only [lastIdxFrom, hrec]
            rw [if_pos (by simpa using hcond)]
            rw [← hn]
            exact dictLookup_insert_self _ _ _
          · have hcond : ¬(rowName row = n ∧ n ≠ "" ∧ (reg n).isSome = true) :=
              fun h => hn h.1
            simp only [lastIdxFrom, hrec]
            rw [if_neg (by simpa using hcond)]
            exact dictLookup_insert_ne _ _ (fun h => hn h.symm) _ _

theorem lastIdxFrom_spec (reg : Registry) (n : String) :
    ∀ (rows : List Row) (k j : Nat),
      lastIdxFrom reg n rows k = some j →
      k ≤ j ∧ ∃ row, rows[j - k]? = some row ∧ rowName row = n ∧ n ≠ "" ∧
        (reg n).isSome = true := by
  intro rows
  induction rows with
  | nil => intro k j h; simp [lastIdxFrom] at h
  | cons row rest ih =>
    intro k j h
    cases hrec : lastIdxFrom reg n rest (k + 1) with
    | some j' =>
      simp only [lastIdxFrom, hrec] at h
      injection h with h'
      subst h'
      obtain ⟨hk, row', hrow, hnm, hne, hsome⟩ := ih (k + 1) j' hrec
      refine ⟨by omega, row', ?_, hnm, hne, hsome⟩
      have e : j' - k = (j' - (k + 1)) + 1 := by omega
      rw [e, List.getElem?_cons_succ]
      exact hrow
    | none =>
      simp only [lastIdxFrom, hrec] at h
      by_cases hcond : rowName row = n ∧ n ≠ "" ∧ (reg n).isSome
      · rw [if_pos hcond] at h
        injection h with h'
        subst h'
        refine ⟨Nat.le_refl _, row, ?_, hcond.1, hcond.2.1, by
          simpa using hcond.2.2⟩
        simp
      · rw [if_neg hcond] at h
        simp at h

theorem lastIdxFrom_isSome (reg : Registry) (n : String) :
    ∀ (rows : List Row) (k : Nat) (t : Nat) (row : Row),
      rows[t]? = some row → rowName row = n → n ≠ "" →
      (reg n).isSome = true →
      (lastIdxFrom reg n rows k).isSome = true := by
  intro rows
  induction rows with
  | nil => intro k t row h; simp at h
  | cons r0 rest ih =>
    intro k t row ht hname hne hsome
    cases hrec : lastIdxFrom reg n rest (k + 1) with
    | some j => simp [lastIdxFrom, hrec]
    | none =>
      cases t with
      | zero =>
        simp only [List.getElem?_cons_zero] at ht
        injection ht with ht
        subst ht
        simp [lastIdxFrom, hrec, hname, hne, hsome]
      | succ t' =>
        have h := ih (k + 1) t' row (by simpa using ht) hname hne hsome
        rw [hrec] at h
        simp at h

theorem lastIdxFrom_ge (reg : Registry) (n : String) :
    ∀ (rows : List Row) (k j : Nat),
      lastIdxFrom reg n rows k = some j →
      ∀ (t : Nat) (row' : Row), rows[t]? = some row' → rowName row' = n →
        k + t ≤ j := by
  intro rows
  induction rows with
  | nil => intro k j h; simp [lastIdxFrom] at h
  | cons row rest ih =>
    intro k j h t row' ht hname
    cases hrec : lastIdxFrom reg n rest (k + 1) with
    | some j' =>
      simp only [lastIdxFrom, hrec] at h
      injection h with h'
      subst h'
      cases t with
      | zero =>
        obtain ⟨hk, -⟩ := lastIdxFrom_spec reg n rest (k + 1) j' hrec
        omega
      | succ t' =>
        have := ih (k + 1) j' hrec t' row' (by simpa using ht) hname
        omega
    | none =>
      simp only [lastIdxFrom, hrec] at h
      by_cases hcond : rowName row = n ∧ n ≠ "" ∧ (reg n).isSome
      · rw [if_pos hcond] at h
        injection h with h'
        subst h'
        cases t with
        | zero => omega
        | succ t' =>
          exfalso
          have hne : n ≠ "" := hcond.2.1
          have hsome : (reg n).isSome = true := by simpa using hcond.2.2
          have hs := lastIdxFrom_isSome reg n rest (k + 1) t' row'
            (by simpa using ht) hname hne hsome
          rw [hrec] at hs
          simp at hs
      · rw [if_neg hcond] at h
        simp at h

/-! Counting lemmas. -/

theorem countP_range_eq_subset (p : Nat → Bool) (n : Nat) (S : List Nat)
    (hS : S.Nodup) (hlt : ∀ i ∈ S, i < n) (hp : ∀ i, p i = true → i ∈ S) :
    (List.range n).countP p = S.countP p := by
  rw [List.countP_eq_length_filter, List.countP_eq_length_filter]
  have h1 : ((List.range n).filter p).Nodup := (List.nodup_range n).filter p
  have h2 : (S.filter p).Nodup := hS.filter p
  have hmm : ∀ i, i ∈ (List.range n).filter p ↔ i ∈ S.filter p := by
    intro i
    simp only [List.mem_filter, List.mem_range]
    constructor
    · rintro ⟨-, hpi⟩
      exact ⟨hp i hpi, hpi⟩
    · rintro ⟨hi, hpi⟩
      exact ⟨hlt i hi, hpi⟩
  have hperm : List.Perm ((List.range n).filter p) (S.filter p) := by
    refine List.perm_iff_count.mpr fun a => ?_
    by_cases ha : a ∈ (List.range n).filter p
    · rw [List.count_eq_one_of_mem h1 ha,
        List.count_eq_one_of_mem h2 ((hmm a).mp ha)]
    · rw [List.count_eq_zero_of_not_mem ha,
        List.count_eq_zero_of_not_mem (fun h => ha ((hmm a).mpr h))]
  exact hperm.length_eq

theorem countP_le_one_of_eq (p : Nat → Bool) (j0 : Nat) :
    ∀ (l : List Nat), l.Nodup → (∀ i ∈ l, p i = true → i = j0) →
      l.countP p ≤ 1 := by
  intro l
  induction l with
  | nil => intro _ _; simp
  | cons a rest ih =>
    intro hnd hu
    rw [List.countP_cons]
    rcases List.nodup_cons.mp hnd with ⟨hna, hnd'⟩
    by_cases hpa : p a = true
    · have ha : a = j0 := hu a (List.mem_cons_self _ _) hpa
      have hrest : rest.countP p = 0 := by
        rw [List.countP_eq_zero]
        intro j hj hpj
        have hj0 : j = j0 := hu j (List.mem_cons_of_mem _ hj) hpj
        exact hna (by rw [ha, ← hj0]; exact hj)
      simp [hrest, hpa]
    · have h1 := ih hnd' (fun i hi hpi => hu i (List.mem_cons_of_mem _ hi) hpi)
      simp only [hpa, if_false]
      simpa using h1

theorem _fetch_one_fst (a : String) (o : FetcherOutcome) :
    (_fetch_one a o).1 = a := by
  cases o <;> rfl

theorem _fetch_one_pair (a : String) (o : FetcherOutcome) :
    ((_fetch_one a o).2.1, (_fetch_one a o).2.2) = outcomePair o := by
  cases o <;> rfl

/-- Claim C1: over any task multiset and any completion order (`as_completed`
yields an arbitrary permutation of the dispatched futures), the collect
phase built on `_fetch_one` assigns every dispatched name exactly one entry
of the results mapping — `_fetch_one` converts a raised exception into a
recorded per-name failure `(None, exc)` and a returned value into
`(value, None)`, so no exception escapes the scheduling layer — and the
results dictionary has no duplicate names. -/
theorem c1_scheduler_isolation (tasks : List (String × FetcherOutcome))
    (completed : List (String × Option String × Option Exc))
    (hperm : List.Perm completed (tasks.map fun t => _fetch_one t.1 t.2))
    (name : String) (o : FetcherOutcome)
    (hmem : (name, o) ∈ tasks)
    (huniq : ∀ o', (name, o') ∈ tasks → o' = o) :
    dictLookup (collectResults completed) name = some (outcomePair o) ∧
    ((collectResults completed).map Prod.fst).Nodup ∧
    (∀ e, o = Except.error e →
      dictLookup (collectResults completed) name = some (none, some e)) ∧
    (∀ v, o = Except.ok v →
      dictLookup (collectResults completed) name = some (v, none)) := by
  have hall : ∀ p ∈ completed, p.1 = name → (p.2.1, p.2.2) = outcomePair o := by
    intro p hp hpn
    have hp' : p ∈ tasks.map fun t => _fetch_one t.1 t.2 := hperm.subset hp
    obtain ⟨t, ht, rfl⟩ := List.mem_map.mp hp'
    have ht1 : t.1 = name := by rw [← _fetch_one_fst t.1 t.2]; exact hpn
    have hmem' : (name, t.2) ∈ tasks := by rw [← ht1]; exact ht
    rw [_fetch_one_pair, huniq t.2 hmem']
  have hfst : name ∈ completed.map Prod.fst := by
    have hin : _fetch_one name o ∈ tasks.map fun t => _fetch_one t.1 t.2 :=
      List.mem_map.mpr ⟨(name, o), hmem, rfl⟩
    exact List.mem_map.mpr ⟨_fetch_one name o, hperm.mem_iff.mpr hin,
      _fetch_one_fst name o⟩
  have hlk := collectResults_lookup completed name (outcomePair o) hall hfst
  refine ⟨hlk, collectResults_keys_nodup completed, ?_, ?_⟩
  · intro e he
    rw [hlk, he]
    rfl
  · intro v hv
    rw [hlk, hv]
    rfl

/-- Claim C1, witness: three dispatched fetchers — one that raises a parse
error, one whose `http_get` exhausts its retries on timeouts and re-raises,
and one that succeeds — collected in an order different from submission
order, produce exactly three per-name results: two failures carrying their
distinct exceptions and one success, with no exception escaping. -/
theorem c1_scheduler_isolation_witness :
    (http_get (fun _ => Except.error Exc.timeoutError) 3).1 =
      Except.error Exc.timeoutError ∧
    dictLookup (collectResults
        [("vscode", some "1.96.0", none),
         ("python", none, some Exc.timeoutError),
         ("clibor", none, some (Exc.valueError "bad html"))])
      "clibor" = some (none, some (Exc.valueError "bad html")) ∧
    dictLookup (collectResults
        [("vscode", some "1.96.0", none),
         ("python", none, some Exc.timeoutError),
         ("clibor", none, some (Exc.valueError "bad html"))])
      "python" = some (none, some Exc.timeoutError) ∧
    dictLookup (collectResults
        [("vscode", some "1.96.0", none),
         ("python", none, some Exc.timeoutError),
         ("clibor", none, some (Exc.valueError "bad html"))])
      "vscode" = some (some "1.96.0", none) ∧
    (collectResults
        [("vscode", some "1.96.0", none),
         ("python", none, some Exc.timeoutError),
         ("clibor", none, some (Exc.valueError "bad html"))]).length = 3 := by
  refine ⟨by decide, ?_, ?_, ?_, by decide⟩
  · have h := c1_scheduler_isolation
      [("clibor", Except.error (Exc.valueError "bad html")),
       ("python", Except.error Exc.timeoutError),
       ("vscode", Except.ok (some "1.96.0"))]
      [("vscode", some "1.96.0", none),
       ("python", none, some Exc.timeoutError),
       ("clibor", none, some (Exc.valueError "bad html"))]
      (by decide) "clibor" (Except.error (Exc.valueError "bad html"))
      (by decide)
      (by
        intro o' h
        simp only [List.mem_cons, List.not_mem_nil, or_false,
          Prod.mk.injEq] at h
        rcases h with ⟨-, h⟩ | ⟨h1, -⟩ | ⟨h1, -⟩
        · exact h
        · exact absurd h1 (by decide)
        · exact absurd h1 (by decide))
    exact h.1
  · have h := c1_scheduler_isolation
      [("clibor", Except.error (Exc.valueError "bad html")),
       ("python", Except.error Exc.timeoutError),
       ("vscode", Except.ok (some "1.96.0"))]
      [("vscode", some "1.96.0", none),
       ("python", none, some Exc.timeoutError),
       ("clibor", none, some (Exc.valueError "bad html"))]
      (by decide) "python" (Except.error Exc.timeoutError)
      (by decide)
      (by
        intro o' h
        simp only [List.mem_cons, List.not_mem_nil, or_false,
          Prod.mk.injEq] at h
        rcases h with ⟨h1, -⟩ | ⟨-, h⟩ | ⟨h1, -⟩
        · exact absurd h1 (by decide)
        · exact h
        · exact absurd h1 (by decide))
    exact h.1
  · have h := c1_scheduler_isolation
      [("clibor", Except.error (Exc.valueError "bad html")),
       ("python", Except.error Exc.timeoutError),
       ("vscode", Except.ok (some "1.96.0"))]
      [("vscode", some "1.96.0", none),
       ("python", none, some Exc.timeoutError),
       ("clibor", none, some (Exc.valueError "bad html"))]
      (by decide) "vscode" (Except.ok (some "1.96.0"))
      (by decide)
      (by
        intro o' h
        simp only [List.mem_cons, List.not_mem_nil, or_false,
          Prod.mk.injEq] at h
        rcases h with ⟨h1, -⟩ | ⟨h1, -⟩ | ⟨-, h⟩
        · exact absurd h1 (by decide)
        · exact absurd h1 (by decide)
        · exact h)
    exact h.1

theorem reconcile_count_changed (reg : Registry)
    (f : String → Option String × Option Exc) (rows : List Row) :
    (reconcileGo f (dispatchState reg rows).row_map rows 0).2 =
      (List.range rows.length).countP (fun i =>
        decide ((reconcileGo f (dispatchState reg rows).row_map rows 0).1[i]?
          ≠ rows[i]?)) := by
  have hsnd := rowMap_snd_nodup reg rows
  have hspec := rowMap_entry_spec reg rows
  have hlt : ∀ i ∈ ((dispatchState reg rows).row_map).map Prod.snd,
      i < rows.length := by
    intro i hi
    obtain ⟨p, hp, rfl⟩ := List.mem_map.mp hi
    obtain ⟨row, hrow, -, -, -⟩ := hspec p hp
    obtain ⟨hlt', -⟩ := List.getElem?_eq_some.mp hrow
    exact hlt'
  have hsub : ∀ i,
      decide ((reconcileGo f (dispatchState reg rows).row_map rows 0).1[i]?
          ≠ rows[i]?) = true →
      i ∈ ((dispatchState reg rows).row_map).map Prod.snd := by
    intro i hchg
    by_contra hni
    have hall : ∀ p ∈ (dispatchState reg rows).row_map, p.2 ≠ i :=
      fun p hp hpi => hni (hpi ▸ List.mem_map.mpr ⟨p, hp, rfl⟩)
    have heq := reconcileGo_untouched f _ rows 0 i hall
    rw [heq] at hchg
    simp at hchg
  rw [reconcileGo_count f _ hsnd rows 0, Nat.zero_add,
    countP_range_eq_subset _ rows.length _ hsnd hlt hsub, List.countP_map]
  refine List.countP_congr ?_
  intro p hp
  obtain ⟨row, hrow, hname, -, -⟩ := hspec p hp
  have hment : (p.1, p.2) ∈ (dispatchState reg rows).row_map := hp
  have htch := reconcileGo_touched f _ hsnd rows 0 p.1 p.2 row hment hrow
  simp only [entryUpdates, hrow, Function.comp, htch, ne_eq,
    Option.some.injEq, decide_eq_true_eq]
  constructor
  · intro h
    exact (applyResult_changed_iff _ _).mpr h
  · intro h
    exact (applyResult_changed_iff _ _).mp h

/-- Claim C3: over the row map `update_latest` builds and an arbitrary
per-name result mapping, the reconcile phase replaces the row a map entry
points at with `applyResult`'s output — whose `latest_version` differs from
the old one exactly when the result carries no exception and holds a value
whose stripped form is non-empty and differs from the row's current
`latest_version` — and the value returned is exactly the number of row
positions whose content changed. -/
theorem c3_reconcile_overwrite_iff (reg : Registry)
    (resultsF : String → Option String × Option Exc) (rows : List Row) :
    (∀ (name : String) (idx : Nat) (row : Row),
      dictLookup (dispatchState reg rows).row_map name = some idx →
      rows[idx]? = some row →
      (reconcileGo resultsF (dispatchState reg rows).row_map rows 0).1[idx]? =
          some (applyResult (resultsF name) row).1 ∧
        ((applyResult (resultsF name) row).1.latest_version ≠
            row.latest_version ↔
          (resultsF name).2 = none ∧ ∃ s, (resultsF name).1 = some s ∧
            pyStrip s ≠ "" ∧ row.latest_version ≠ some (pyStrip s))) ∧
    (reconcileGo resultsF (dispatchState reg rows).row_map rows 0).2 =
      (List.range rows.length).countP (fun i =>
        decide ((reconcileGo resultsF (dispatchState reg rows).row_map rows
          0).1[i]? ≠ rows[i]?)) := by
  have hsnd := rowMap_snd_nodup reg rows
  refine ⟨?_, reconcile_count_changed reg resultsF rows⟩
  intro name idx row hlk hrow
  have hment := dictLookup_mem _ _ _ hlk
  refine ⟨reconcileGo_touched resultsF _ hsnd rows 0 name idx row hment hrow,
    ?_⟩
  constructor
  · intro h
    have hflag := (applyResult_latest_changed_iff (resultsF name) row).mp h
    obtain ⟨h2, s, h1, hs, hd, -⟩ := applyResult_flag_true _ _ hflag
    exact ⟨h2, s, h1, hs, hd⟩
  · rintro ⟨h2, s, h1, hs, hd⟩
    exact (applyResult_latest_changed_iff _ _).mpr
      (applyResult_flag_of_cond _ _ h2 s h1 hs hd)

/-- Claim C3, witness: `c3_reconcile_overwrite_iff` applied to a concrete
registry, result mapping and rows — the `git` entry points at the third row,
whose result `" 2.52.0 "` strips to `"2.52.0"`, differs from `"2.50.0"`, and
is written. -/
theorem c3_reconcile_overwrite_iff_witness :
    ((reconcileGo wresults (dispatchState wreg wrows).row_map wrows 0).1[2]? =
      some (applyResult (wresults "git") wrow).1 ∧
    ((applyResult (wresults "git") wrow).1.latest_version ≠
        wrow.latest_version ↔
      (wresults "git").2 = none ∧ ∃ s, (wresults "git").1 = some s ∧
        pyStrip s ≠ "" ∧ wrow.latest_version ≠ some (pyStrip s))) ∧
    (reconcileGo wresults (dispatchState wreg wrows).row_map wrows 0).2 =
      (List.range wrows.length).countP (fun i =>
        decide ((reconcileGo wresults (dispatchState wreg wrows).row_map wrows
          0).1[i]? ≠ wrows[i]?)) :=
  ⟨(c3_reconcile_overwrite_iff wreg wresults wrows).1 "git" 2 wrow
      (by decide) (by decide),
   (c3_reconcile_overwrite_iff wreg wresults wrows).2⟩

/-- Claim C4: `update_latest` preserves the number of rows; every output row
agrees with its input row on every field other than `latest_version`; a row
whose name is empty or not a registry key, or whose collected result carries
an exception, is returned byte-identical; and the returned count equals the
number of row positions whose content changed (so untouched rows contribute
nothing to it). -/
theorem c4_frame (reg : Registry) (rows : List Row) :
    ((update_latest reg rows).1.length = rows.length) ∧
    (∀ (i : Nat) (row : Row), rows[i]? = some row →
      ∃ row', (update_latest reg rows).1[i]? = some row' ∧
        row'.name = row.name ∧ row'.formal_name = row.formal_name ∧
        row'.desired_version = row.desired_version ∧
        row'.extra = row.extra) ∧
    (∀ (i : Nat) (row : Row), rows[i]? = some row →
      (rowName row = "" ∨ reg (rowName row) = none ∨
        (updateResultsF reg rows (rowName row)).2.isSome = true) →
      (update_latest reg rows).1[i]? = some row) ∧
    ((update_latest reg rows).2 =
      (List.range rows.length).countP (fun i =>
        decide ((update_latest reg rows).1[i]? ≠ rows[i]?))) := by
  have hsnd := rowMap_snd_nodup reg rows
  have hspec := rowMap_entry_spec reg rows
  refine ⟨reconcileGo_length _ _ rows 0, ?_, ?_,
    reconcile_count_changed reg (updateResultsF reg rows) rows⟩
  · intro i row hrow
    by_cases hmem : i ∈ ((dispatchState reg rows).row_map).map Prod.snd
    · obtain ⟨p, hp, hpi⟩ := List.mem_map.mp hmem
      obtain ⟨row0, hrow0, hname0, -, -⟩ := hspec p hp
      rw [hpi, hrow] at hrow0
      injection hrow0 with he
      subst he
      have hment : (p.1, i) ∈ (dispatchState reg rows).row_map := by
        rw [← hpi]; exact hp
      have htch := reconcileGo_touched (updateResultsF reg rows) _ hsnd rows 0
        p.1 i row hment hrow
      have hfr := applyResult_frame (updateResultsF reg rows p.1) row
      exact ⟨(applyResult (updateResultsF reg rows p.1) row).1, htch,
        hfr.1, hfr.2.1, hfr.2.2.1, hfr.2.2.2⟩
    · have hall : ∀ p ∈ (dispatchState reg rows).row_map, p.2 ≠ i :=
        fun p hp hpi => hmem (hpi ▸ List.mem_map.mpr ⟨p, hp, rfl⟩)
      exact ⟨row, by
        show (reconcileGo (updateResultsF reg rows)
          (dispatchState reg rows).row_map rows 0).1[i]? = some row
        rw [reconcileGo_untouched (updateResultsF reg rows) _ rows 0 i hall,
          hrow], rfl, rfl, rfl, rfl⟩
  · intro i row hrow hcase
    by_cases hmem : i ∈ ((dispatchState reg rows).row_map).map Prod.snd
    · obtain ⟨p, hp, hpi⟩ := List.mem_map.mp hmem
      obtain ⟨row0, hrow0, hname0, hne0, hsome0⟩ := hspec p hp
      rw [hpi, hrow] at hrow0
      injection hrow0 with he
      subst he
      rcases hcase with hc | hc | hc
      · exact absurd (by rw [← hname0, hc] : p.1 = "") hne0
      · rw [hname0] at hc
        rw [hc] at hsome0
        simp at hsome0
      · have hment : (p.1, i) ∈ (dispatchState reg rows).row_map := by
          rw [← hpi]; exact hp
        have htch := reconcileGo_touched (updateResultsF reg rows) _ hsnd
          rows 0 p.1 i row hment hrow
        show (reconcileGo (updateResultsF reg rows)
          (dispatchState reg rows).row_map rows 0).1[i]? = some row
        rw [htch]
        rw [hname0] at hc
        rw [applyResult_exc _ _ hc]
    · have hall : ∀ p ∈ (dispatchState reg rows).row_map, p.2 ≠ i :=
        fun p hp hpi => hmem (hpi ▸ List.mem_map.mpr ⟨p, hp, rfl⟩)
      show (reconcileGo (updateResultsF reg rows)
        (dispatchState reg rows).row_map rows 0).1[i]? = some row
      rw [reconcileGo_untouched (updateResultsF reg rows) _ rows 0 i hall,
        hrow]

/-- Claim C4, witness: `c4_frame` applied to a registry where `git` succeeds
with a new version and `python` raises, over rows carrying an unregistered
name, the failing name and the succeeding name. -/
theorem c4_frame_witness :
    ((update_latest wreg wrows).1.length = wrows.length) ∧
    ((update_latest wreg wrows).1[0]? =
      some ⟨some "mystery", some "M", some "1", some "0.1", []⟩) ∧
    ((update_latest wreg wrows).1[1]? =
      some ⟨some "python", some "Py", some "1", some "3.0.0", []⟩) ∧
    ((update_latest wreg wrows).2 =
      (List.range wrows.length).countP (fun i =>
        decide ((update_latest wreg wrows).1[i]? ≠ wrows[i]?))) :=
  ⟨(c4_frame wreg wrows).1,
   (c4_frame wreg wrows).2.2.1 0
      ⟨some "mystery", some "M", some "1", some "0.1", []⟩ (by decide)
      (Or.inr (Or.inl (by decide))),
   (c4_frame wreg wrows).2.2.1 1
      ⟨some "python", some "Py", some "1", some "3.0.0", []⟩ (by decide)
      (Or.inr (Or.inr (by decide))),
   (c4_frame wreg wrows).2.2.2⟩

theorem poolTasks_countP (reg : Registry) (n : String) (o : FetcherOutcome)
    (hreg : reg n = some o) (hne : n ≠ "") :
    ∀ rows : List Row,
      (poolTasks reg false rows).countP (fun t => decide (t.1 = n)) +
        (poolTasks reg true rows).countP (fun t => decide (t.1 = n)) =
      rows.countP (fun row => decide (rowName row = n)) := by
  intro rows
  induction rows with
  | nil => simp [poolTasks]
  | cons row rest ih =>
    rw [List.countP_cons]
    by_cases hname : rowName row = n
    · have h0 : rowName row ≠ "" := by rw [hname]; exact hne
      have hrg : reg (rowName row) = some o := by rw [hname]; exact hreg
      cases hgh : decide (rowName row ∈ GITHUB_FETCHERS) with
      | true =>
        rw [show poolTasks reg true (row :: rest) =
              (rowName row, o) :: poolTasks reg true rest from by
            simp [poolTasks, h0, hrg, hgh],
          show poolTasks reg false (row :: rest) = poolTasks reg false rest
            from by simp [poolTasks, h0, hrg, hgh],
          List.countP_cons]
        simp [hname]
        omega
      | false =>
        rw [show poolTasks reg false (row :: rest) =
              (rowName row, o) :: poolTasks reg false rest from by
            simp [poolTasks, h0, hrg, hgh],
          show poolTasks reg true (row :: rest) = poolTasks reg true rest
            from by simp [poolTasks, h0, hrg, hgh],
          List.countP_cons]
        simp [hname]
        omega
    · by_cases h0 : rowName row = ""
      · rw [show poolTasks reg false (row :: rest) = poolTasks reg false rest
            from by simp [poolTasks, h0],
          show poolTasks reg true (row :: rest) = poolTasks reg true rest
            from by simp [poolTasks, h0]]
        simp [hname, ih]
      · cases hrg : reg (rowName row) with
        | none =>
          rw [show poolTasks reg false (row :: rest) =
                poolTasks reg false rest from by simp [poolTasks, h0, hrg],
            show poolTasks reg true (row :: rest) = poolTasks reg true rest
              from by simp [poolTasks, h0, hrg]]
          simp [hname, ih]
        | some o2 =>
          cases hgh : decide (rowName row ∈ GITHUB_FETCHERS) with
          | true =>
            rw [show poolTasks reg true (row :: rest) =
                  (rowName row, o2) :: poolTasks reg true rest from by
                simp [poolTasks, h0, hrg, hgh],
              show poolTasks reg false (row :: rest) =
                poolTasks reg false rest from by
                  simp [poolTasks, h0, hrg, hgh],
              List.countP_cons]
            simp [hname, ih]
          | false =>
            rw [show poolTasks reg false (row :: rest) =
                  (rowName row, o2) :: poolTasks reg false rest from by
                simp [poolTasks, h0, hrg, hgh],
              show poolTasks reg true (row :: rest) =
                poolTasks reg true rest from by
                  simp [poolTasks, h0, hrg, hgh],
              List.countP_cons]
            simp [hname, ih]

/-- Claim C10, counterexample: with two rows both named `git` — a registered
name — the dispatch loop submits a fetch task for `git` twice, once per row
occurrence, where the claim says the fetch is dispatched only once. -/
theorem c10_duplicate_dispatch_counterexample :
    c10rows.map rowName = ["git", "git"] ∧
    (allTasks c10reg c10rows).countP (fun t => decide (t.1 = "git")) = 2 := by
  decide

/-- Claim C10, amended: for duplicate names the fetch is dispatched once per
row occurrence of the name (not once per distinct name); `row_map[n]` is the
index of the last row bearing `n`, so the reconcile phase writes
`applyResult`'s output only to that row — every row with the name at any
other position is left entirely unchanged — and the returned count counts at
most one row per distinct name. -/
theorem c10_duplicate_names (reg : Registry) (rows : List Row) (n : String)
    (o : FetcherOutcome) (hreg : reg n = some o) (hne : n ≠ "") :
    ((allTasks reg rows).countP (fun t => decide (t.1 = n)) =
      rows.countP (fun row => decide (rowName row = n))) ∧
    (dictLookup (dispatchState reg rows).row_map n =
      lastIdxFrom reg n rows 0) ∧
    (∀ j, lastIdxFrom reg n rows 0 = some j →
      (∃ row, rows[j]? = some row ∧ rowName row = n) ∧
      (∀ (t : Nat) (row' : Row), rows[t]? = some row' → rowName row' = n →
        t ≤ j)) ∧
    (∀ (i : Nat) (row : Row), rows[i]? = some row → rowName row = n →
      dictLookup (dispatchState reg rows).row_map n ≠ some i →
      (update_latest reg rows).1[i]? = some row) ∧
    (∀ (j : Nat) (row : Row),
      dictLookup (dispatchState reg rows).row_map n = some j →
      rows[j]? = some row →
      (update_latest reg rows).1[j]? =
        some (applyResult (updateResultsF reg rows n) row).1) ∧
    ((List.range rows.length).countP (fun i =>
        decide ((update_latest reg rows).1[i]? ≠ rows[i]?) &&
        decide ((rows[i]?).map rowName = some n)) ≤ 1) := by
  have hsnd := rowMap_snd_nodup reg rows
  have hkeys := rowMap_keys_nodup reg rows
  have hspec := rowMap_entry_spec reg rows
  have key : ∀ (i : Nat) (row : Row), rows[i]? = some row → rowName row = n →
      i ∈ ((dispatchState reg rows).row_map).map Prod.snd →
      dictLookup (dispatchState reg rows).row_map n = some i := by
    intro i row hrow hname hmem
    obtain ⟨p, hp, hpi⟩ := List.mem_map.mp hmem
    obtain ⟨row0, hrow0, hname0, -, -⟩ := hspec p hp
    rw [hpi, hrow] at hrow0
    injection hrow0 with he
    subst he
    have hp1 : p.1 = n := by rw [← hname0, hname]
    have hl : dictLookup (dispatchState reg rows).row_map p.1 = some p.2 :=
      mem_dictLookup _ p.1 p.2 hkeys hp
    rw [hp1, hpi] at hl
    exact hl
  refine ⟨?_, ?_, ?_, ?_, ?_, ?_⟩
  · rw [allTasks_eq, List.countP_append]
    exact poolTasks_countP reg n o hreg hne rows
  · rw [rowMap_eq, buildRowMapGo_lookup]
    cases h : lastIdxFrom reg n rows 0 <;> simp [dictLookup]
  · intro j hj
    obtain ⟨-, row, hrow, hname, -, -⟩ := lastIdxFrom_spec reg n rows 0 j hj
    refine ⟨⟨row, by simpa using hrow, hname⟩, ?_⟩
    intro t row' ht hname'
    have := lastIdxFrom_ge reg n rows 0 j hj t row' ht hname'
    omega
  · intro i row hrow hname hnl
    have hall : ∀ p ∈ (dispatchState reg rows).row_map, p.2 ≠ i := by
      intro p hp hpi
      exact hnl (key i row hrow hname (hpi ▸ List.mem_map.mpr ⟨p, hp, rfl⟩))
    show (reconcileGo (updateResultsF reg rows)
      (dispatchState reg rows).row_map rows 0).1[i]? = some row
    rw [reconcileGo_untouched (updateResultsF reg rows) _ rows 0 i hall, hrow]
  · intro j row hl hrow
    have hment := dictLookup_mem _ _ _ hl
    show (reconcileGo (updateResultsF reg rows)
      (dispatchState reg rows).row_map rows 0).1[j]? =
      some (applyResult (updateResultsF reg rows n) row).1
    exact reconcileGo_touched (updateResultsF reg rows) _ hsnd rows 0 n j row
      hment hrow
  · have hpred : ∀ (i : Nat),
        (decide ((update_latest reg rows).1[i]? ≠ rows[i]?) &&
          decide ((rows[i]?).map rowName = some n)) = true →
        dictLookup (dispatchState reg rows).row_map n = some i := by
      intro i hped
      rw [Bool.and_eq_true, decide_eq_true_eq, decide_eq_true_eq] at hped
      obtain ⟨hchg, hnm⟩ := hped
      cases hri : rows[i]? with
      | none =>
        rw [hri] at hnm
        simp at hnm
      | some row =>
        rw [hri] at hnm
        simp only [Option.map_some'] at hnm
        injection hnm with hnm
        by_cases hmem : i ∈ ((dispatchState reg rows).row_map).map Prod.snd
        · exact key i row hri hnm hmem
        · exfalso
          have hall : ∀ p ∈ (dispatchState reg rows).row_map, p.2 ≠ i :=
            fun p hp hpi => hmem (hpi ▸ List.mem_map.mpr ⟨p, hp, rfl⟩)
          have heq := reconcileGo_untouched (updateResultsF reg rows) _ rows
            0 i hall
          exact hchg heq
    cases hl : dictLookup (dispatchState reg rows).row_map n with
    | none =>
      have hz : (List.range rows.length).countP (fun i =>
          decide ((update_latest reg rows).1[i]? ≠ rows[i]?) &&
          decide ((rows[i]?).map rowName = some n)) = 0 := by
        rw [List.countP_eq_zero]
        intro i _ hped
        have := hpred i hped
        rw [hl] at this
        exact Option.noConfusion this
      omega
    | some j0 =>
      refine countP_le_one_of_eq _ j0 _ (List.nodup_range rows.length) ?_
      intro i _ hped
      have := hpred i hped
      rw [hl] at this
      injection this with h'
      exact h'.symm

/-- Claim C10, witness: `c10_duplicate_names` applied to two rows named
`git` with a registered fetcher: the task is dispatched twice, `row_map`
keeps index 1 (the last `git` row), row 0 is unchanged, and at most one
`git` row is counted. -/
theorem c10_duplicate_names_witness :
    ((allTasks c10reg c10rows).countP (fun t => decide (t.1 = "git")) =
      c10rows.countP (fun row => decide (rowName row = "git"))) ∧
    (dictLookup (dispatchState c10reg c10rows).row_map "git" =
      lastIdxFrom c10reg "git" c10rows 0) ∧
    ((update_latest c10reg c10rows).1[0]? =
      some ⟨some "git", some "Git", some "1", some "2.50.0", []⟩) ∧
    ((List.range c10rows.length).countP (fun i =>
        decide ((update_latest c10reg c10rows).1[i]? ≠ c10rows[i]?) &&
        decide ((c10rows[i]?).map rowName = some "git")) ≤ 1) :=
  ⟨(c10_duplicate_names c10reg c10rows "git" (Except.ok (some "9.9.9"))
      rfl (by decide)).1,
   (c10_duplicate_names c10reg c10rows "git" (Except.ok (some "9.9.9"))
      rfl (by decide)).2.1,
   (c10_duplicate_names c10reg c10rows "git" (Except.ok (some "9.9.9"))
      rfl (by decide)).2.2.2.1 0
      ⟨some "git", some "Git", some "1", some "2.50.0", []⟩
      (by decide) (by decide) (by decide),
   (c10_duplicate_names c10reg c10rows "git" (Except.ok (some "9.9.9"))
      rfl (by decide)).2.2.2.2.2⟩

end ReleaseWatch
